import Mathlib

/-!
A verification development for the spcasm SPC700 assembler core
(`src/assembler/mod.rs`, `src/assembler/directive.rs`, `src/parser/mod.rs`,
`src/sema/mod.rs`).  Rust machine integers `i64` are embedded as `Int`,
`u8`/`usize` values as `Nat` with explicit truncation where the source
truncates.  Shared mutable label cells (`Arc<RefCell<GlobalLabel>>` and
friends) are embedded as an explicit heap: an association list from label id
to the stored location value, threaded through the functions that read or
write it.  Source spans and diagnostic payload that never influence the
computed bytes are dropped.
-/

namespace Spcasm

/-- `MemoryAddress` is `i64` in the source. -/
abbrev MemoryAddress := Int

/-- A label handle.  In the source (`crate::label`, old generation) labels are
`Label::Global(Arc<RefCell<GlobalLabel>>)` or `Label::Local(...)`; the heap cell
is embedded as an id into the label store. -/
inductive Label where
  | global (id : Nat) : Label
  | local (id : Nat) : Label
deriving DecidableEq, Repr

/-- The id of the underlying label cell. -/
def Label.id : Label → Nat
  | .global i => i
  | .local i => i

/-- Whether this is a `Label::Global`. -/
def Label.isGlobal : Label → Bool
  | .global _ => true
  | .local _ => false

/-- Unary operators of the assembly-time expression language.
Modelled from the spec: the `Number` expression type of `crate::instruction`
is not among the provided sources; the spec lists "unary (negation, bitwise
NOT)". -/
inductive UnOp where
  | neg : UnOp
  | bitNot : UnOp
deriving DecidableEq, Repr

/-- Binary operators of the assembly-time expression language.
Modelled from the spec: "binary (add, subtract, multiply, divide, modulo,
shift-left, shift-right, and, or, xor, exponentiation)". -/
inductive BinOp where
  | add : BinOp
  | sub : BinOp
  | mul : BinOp
  | div : BinOp
  | mod : BinOp
  | shl : BinOp
  | shr : BinOp
  | bitAnd : BinOp
  | bitOr : BinOp
  | bitXor : BinOp
  | pow : BinOp
deriving DecidableEq, Repr

/-- Assembly-time expressions (`Number` in the old-generation source,
`AssemblyTimeValue` in the new generation).
Modelled from the spec: "a lazy expression tree over integer memory
addresses: literal integer, reference (by ownership-shared handle), unary,
binary".  The shared reference handle is embedded as the id of the label
cell it points at. -/
inductive Number where
  | literal (value : Int) : Number
  | ref (label : Label) : Number
  | unary (op : UnOp) (operand : Number) : Number
  | binary (op : BinOp) (lhs rhs : Number) : Number
deriving DecidableEq, Repr

/-- Evaluation of a unary operator on `i64` (wrap-around ignored: assembly
addresses stay far below the `i64` range). -/
def evalUn : UnOp → Int → Int
  | .neg, x => -x
  | .bitNot, x => -(x + 1)

/-- Evaluation of a binary operator with Rust `i64` semantics: `/` and `%`
truncate toward zero, `>>` is an arithmetic (floor) shift, `<<` multiplies by
a power of two. -/
def evalBin : BinOp → Int → Int → Int
  | .add, x, y => x + y
  | .sub, x, y => x - y
  | .mul, x, y => x * y
  | .div, x, y => Int.tdiv x y
  | .mod, x, y => Int.tmod x y
  | .shl, x, y => x * 2 ^ y.toNat
  | .shr, x, y => Int.fdiv x (2 ^ y.toNat)
  | .bitAnd, x, y => Int.land x y
  | .bitOr, x, y => Int.lor x y
  | .bitXor, x, y => Int.xor x y
  | .pow, x, y => x ^ y.toNat

/-- The label heap: location values stored in the shared label cells
(`GlobalLabel::location` / `LocalLabel::location`, an `Option<Number>`).
An id absent from the list is an unresolved label (`location == None`). -/
abbrev LabelStore := List (Nat × Number)

/-- Read a label cell's location. -/
def LabelStore.lookup (store : LabelStore) (id : Nat) : Option Number :=
  (List.find? (fun p => p.1 = id) store).map (·.2)

/-- `Resolvable::is_resolved`: the cell holds `Some` location. -/
def LabelStore.isResolved (store : LabelStore) (l : Label) : Bool :=
  (store.lookup l.id).isSome

/-- `Resolvable::resolve_to(memory_address, ..)`: store the literal memory
address into the label cell. -/
def LabelStore.resolveTo (store : LabelStore) (l : Label) (address : MemoryAddress) :
    LabelStore :=
  (l.id, Number.literal address) :: store

/-- `Number::try_resolve`.  Modelled from the spec: "`try_resolve()` reduces
the tree by folding subtrees whose references have resolved locations"; a
reference folds when its label cell holds a literal location. -/
def Number.tryResolve (store : LabelStore) : Number → Number
  | .literal v => .literal v
  | .ref l =>
    match store.lookup l.id with
    | some (.literal v) => .literal v
    | _ => .ref l
  | .unary op n =>
    match n.tryResolve store with
    | .literal v => .literal (evalUn op v)
    | n' => .unary op n'
  | .binary op l r =>
    match l.tryResolve store, r.tryResolve store with
    | .literal x, .literal y => .literal (evalBin op x y)
    | l', r' => .binary op l' r'

/-- `AssemblyTimeValue::value_using_resolver(f)`.  Modelled from the spec:
"evaluates by substituting each reference through a caller-provided function";
the result is `None` as soon as some reference is not covered by the
resolver. -/
def Number.valueUsingResolver (f : Label → Option Int) : Number → Option Int
  | .literal v => some v
  | .ref l => f l
  | .unary op n => (n.valueUsingResolver f).map (evalUn op)
  | .binary op l r =>
    match l.valueUsingResolver f, r.valueUsingResolver f with
    | some x, some y => some (evalBin op x y)
    | _, _ => none

/-- The `b`-th byte of the two's-complement representation of `x`:
translation of `((x & (0xFF << (b * 8))) >> (b * 8)) as u8` from
`MemoryValue::try_resolve` (the mask keeps bits `8b .. 8b+8`, the shift moves
them down, which is exactly `(x mod 2^(8b+8)) / 2^(8b)` on the euclidean
remainder). -/
def byteOf (x : Int) (b : Nat) : Nat :=
  (x.emod (2 ^ (8 * (b + 1)))).toNat / 2 ^ (8 * b)

/-- Translation of `((x & 0x1F00) >> 8) as u8`: the mask keeps bits
`8 .. 13`, so this is `(x mod 2^13) / 2^8`. -/
def maskedHighByte (x : Int) : Nat :=
  (x.emod (2 ^ 13)).toNat / 2 ^ 8

/-- `MemoryValue` of `src/assembler/mod.rs`: the internal data held in one
byte of memory, which may not be resolved yet. -/
inductive MemoryValue where
  | resolved (value : Nat) : MemoryValue
  | number (n : Number) (byte : Nat) : MemoryValue
  | numberRelative (n : Number) : MemoryValue
  | numberHighByteWithContainedBitIndex (n : Number) (bitIndex : Nat) : MemoryValue
deriving DecidableEq, Repr

/-- `MemoryValue::try_resolve` (`src/assembler/mod.rs:407-430`). -/
def MemoryValue.tryResolve (store : LabelStore) (ownMemoryAddress : MemoryAddress) :
    MemoryValue → MemoryValue
  | .resolved v => .resolved v
  | .number n byte =>
    match n.tryResolve store with
    | .literal memoryLocation => .resolved (byteOf memoryLocation byte)
    | r => .number r byte
  | .numberRelative n =>
    match n.tryResolve store with
    | .literal labelMemoryAddress =>
      -- `(label_memory_address - (own_memory_address + 1)) as u8`
      .resolved ((labelMemoryAddress - (ownMemoryAddress + 1)).emod 256).toNat
    | r => .numberRelative r
  | .numberHighByteWithContainedBitIndex n bitIndex =>
    match n.tryResolve store with
    | .literal labelMemoryAddress =>
      -- `((label_memory_address & 0x1F00) >> 8) as u8 | (bit_index << 5)`
      .resolved (maskedHighByte labelMemoryAddress ||| bitIndex <<< 5)
    | r => .numberHighByteWithContainedBitIndex r bitIndex

/-- `MemoryValue::try_resolved`: `Ok` value for resolved data, the offending
number otherwise. -/
def MemoryValue.tryResolved : MemoryValue → Except Number Nat
  | .resolved v => .ok v
  | .number n _ => .error n
  | .numberHighByteWithContainedBitIndex n _ => .error n
  | .numberRelative n => .error n

/-- `LabeledMemoryValue` (`src/assembler/mod.rs:345-352`), minus the source
span (diagnostic only). -/
structure LabeledMemoryValue where
  label : Option Label
  value : MemoryValue
deriving DecidableEq, Repr

/-- `LabeledMemoryValue::try_resolve` (`src/assembler/mod.rs:360-369`): does
nothing and reports `false` on already-resolved data; otherwise replaces the
value by its `MemoryValue::try_resolve` result and reports `true` (even when
that result is unchanged). -/
def LabeledMemoryValue.tryResolve (store : LabelStore) (ownMemoryAddress : MemoryAddress)
    (lmv : LabeledMemoryValue) : LabeledMemoryValue × Bool :=
  match lmv.value with
  | .resolved _ => (lmv, false)
  | _ => ({ lmv with value := lmv.value.tryResolve store ownMemoryAddress }, true)

/-- The assembly errors relevant to the embedded functions, with the payload
fields that are computed (file names, spans and source handles dropped). -/
inductive AssemblyError where
  | sectionMismatch (sectionStart sectionEnd : MemoryAddress) : AssemblyError
  | unresolvedLabel : AssemblyError
  | rangeOutOfBounds (start stop fileLen : Nat) : AssemblyError
  | includeCycle : AssemblyError
  | missingSegment : AssemblyError
  | twoOperandsNotAllowed : AssemblyError
  | operandNotAllowed : AssemblyError
deriving DecidableEq, Repr

/-- `LabeledMemoryValue::try_as_resolved`, with the unresolved-label payload
reduced to the error tag. -/
def LabeledMemoryValue.tryAsResolved (lmv : LabeledMemoryValue) :
    Except AssemblyError Nat :=
  match lmv.value.tryResolved with
  | .ok v => .ok v
  | .error _ => .error .unresolvedLabel


/-- Segment store: the embedding of `BTreeMap<MemoryAddress, Vec<LabeledMemoryValue>>`
as an association list kept sorted by strictly ascending key. -/
abbrev SegmentMap := List (MemoryAddress × List LabeledMemoryValue)

/-- `BTreeMap::insert`: replace the value of an existing key, keep keys
strictly ascending. -/
def SegmentMap.insert (m : SegmentMap) (key : MemoryAddress)
    (value : List LabeledMemoryValue) : SegmentMap :=
  match m with
  | [] => [(key, value)]
  | (k, v) :: rest =>
    if key < k then (key, value) :: (k, v) :: rest
    else if key = k then (key, value) :: rest
    else (k, v) :: SegmentMap.insert rest key value

/-- Read a segment by starting address. -/
def SegmentMap.lookup (m : SegmentMap) (key : MemoryAddress) :
    Option (List LabeledMemoryValue) :=
  (List.find? (fun p => p.1 = key) m).map (·.2)

/-- Replace the contents of the segment at `key` (used for
`current_segment_mut().push(..)`). -/
def SegmentMap.pushAt (m : SegmentMap) (key : MemoryAddress)
    (lmv : LabeledMemoryValue) : SegmentMap :=
  m.map (fun p => if p.1 = key then (p.1, p.2 ++ [lmv]) else p)

/-- `AssembledData` (`src/assembler/mod.rs:444-453`).  The `labels` field is
the heap of shared label cells that the Rust code reaches through `Arc`
handles; `source_code` is dropped. -/
structure AssembledData where
  segments : SegmentMap
  currentSegmentStart : Option MemoryAddress
  labels : LabelStore
  shouldStop : Bool
deriving DecidableEq, Repr

namespace AssembledData

/-- `AssembledData::new`. -/
def new : AssembledData :=
  { segments := [], currentSegmentStart := none, labels := [], shouldStop := false }

/-- `AssembledData::new_segment`: insert an empty segment (replacing any
segment that starts at this address) and make it current. -/
def newSegment (d : AssembledData) (segmentStart : MemoryAddress) : AssembledData :=
  { d with
    segments := d.segments.insert segmentStart []
    currentSegmentStart := some segmentStart }

/-- `AssembledData::current_location`: current segment start plus the number
of bytes already in it.  (Rust panics when no segment is open; that case is
mapped to `none`.) -/
def currentLocation (d : AssembledData) : Option MemoryAddress := do
  let start ← d.currentSegmentStart
  let seg ← d.segments.lookup start
  pure (start + seg.length)

/-- `AssembledData::append`: push one resolved byte onto the current segment.
(Rust panics when no segment is open; the embedded function then leaves the
data unchanged — unreachable from `assemble`, which opens segment 0 first.) -/
def append (d : AssembledData) (value : Nat) (label : Option Label) : AssembledData :=
  match d.currentSegmentStart with
  | none => d
  | some start =>
    { d with segments := d.segments.pushAt start { label, value := .resolved value } }

/-- Push an arbitrary memory value onto the current segment (the common body
of the `append_*_unresolved` functions). -/
def pushValue (d : AssembledData) (value : MemoryValue) (label : Option Label) :
    AssembledData :=
  match d.currentSegmentStart with
  | none => d
  | some start =>
    { d with segments := d.segments.pushAt start { label, value } }

/-- `AssembledData::append_8_bits`: truncate to 8 bits and append.  (The
source additionally prints a `ValueTooLarge` report when truncation loses
bits; diagnostics are not modelled.) -/
def append8Bits (d : AssembledData) (value : MemoryAddress) (label : Option Label) :
    AssembledData :=
  d.append (byteOf value 0) label

/-- `AssembledData::append_16_bits`: low byte (carrying the label) then high
byte. -/
def append16Bits (d : AssembledData) (value : MemoryAddress) (label : Option Label) :
    AssembledData :=
  (d.append (byteOf value 0) label).append (byteOf value 1) none

/-- `AssembledData::append_bytes`: only the first byte carries the label. -/
def appendBytes (d : AssembledData) (values : List Nat) (label : Option Label) :
    AssembledData :=
  match values with
  | [] => d
  | v :: rest => rest.foldl (fun acc b => acc.append b none) (d.append v label)

/-- `AssembledData::append_8_bits_unresolved`. -/
def append8BitsUnresolved (d : AssembledData) (value : Number) (byte : Nat)
    (label : Option Label) : AssembledData :=
  d.pushValue (.number value byte) label

/-- `AssembledData::append_16_bits_unresolved`: byte 0 (with the label), then
byte 1 (without). -/
def append16BitsUnresolved (d : AssembledData) (value : Number) (label : Option Label) :
    AssembledData :=
  (d.append8BitsUnresolved value 0 label).append8BitsUnresolved value 1 none

/-- `AssembledData::append_relative_unresolved`. -/
def appendRelativeUnresolved (d : AssembledData) (value : Number) : AssembledData :=
  d.pushValue (.numberRelative value) none

/-- `AssembledData::append_unresolved_with_bit_index`. -/
def appendUnresolvedWithBitIndex (d : AssembledData) (value : Number) (bitIndex : Nat) :
    AssembledData :=
  d.pushValue (.numberHighByteWithContainedBitIndex value bitIndex) none

/-- `AssembledData::append_instruction`: opcode byte carrying the
instruction's label. -/
def appendInstruction (d : AssembledData) (opcode : Nat) (label : Option Label) :
    AssembledData :=
  d.append opcode label

/-- `AssembledData::append_instruction_with_8_bit_operand`. -/
def appendInstructionWith8BitOperand (d : AssembledData) (opcode : Nat)
    (operand : Number) (label : Option Label) : AssembledData :=
  let d := d.append opcode label
  match operand.tryResolve d.labels with
  | .literal value => d.append8Bits value none
  | value => d.append8BitsUnresolved value 0 none

/-- `AssembledData::append_instruction_with_16_bit_operand`. -/
def appendInstructionWith16BitOperand (d : AssembledData) (opcode : Nat)
    (operand : Number) (label : Option Label) : AssembledData :=
  let d := d.append opcode label
  match operand.tryResolve d.labels with
  | .literal value => d.append16Bits value none
  | value => d.append16BitsUnresolved value none

/-- `value | (MemoryAddress::from(bit_index) << 13)` from
`append_instruction_with_16_bit_operand_and_bit_index` (`x << 13` is
`x * 2^13`). -/
def withBitIndex (value : MemoryAddress) (bitIndex : Nat) : MemoryAddress :=
  Int.lor value ((bitIndex : Int) * 2 ^ 13)

/-- `AssembledData::append_instruction_with_16_bit_operand_and_bit_index`:
for an already-resolved operand, `value | (bit_index << 13)` is appended as
16 bits; otherwise byte 0 is deferred as a plain number byte and the high
byte as a bit-index-packed slot. -/
def appendInstructionWith16BitOperandAndBitIndex (d : AssembledData) (opcode : Nat)
    (operand : Number) (bitIndex : Nat) (label : Option Label) : AssembledData :=
  let d := d.append opcode label
  match operand.tryResolve d.labels with
  | .literal value => d.append16Bits (withBitIndex value bitIndex) none
  | value =>
    (d.append8BitsUnresolved value 0 none).appendUnresolvedWithBitIndex value bitIndex

/-- `AssembledData::append_instruction_with_relative_label`: an operand that
already resolves to a literal is appended as that very byte; otherwise a
deferred `NumberRelative` slot is emitted. -/
def appendInstructionWithRelativeLabel (d : AssembledData) (opcode : Nat)
    (operand : Number) (label : Option Label) : AssembledData :=
  let d := d.append opcode label
  match operand.tryResolve d.labels with
  | .literal value => d.append8Bits value none
  | value => d.appendRelativeUnresolved value

end AssembledData

/-- One step of the per-segment loop of
`AssembledData::execute_label_resolution_pass`
(`src/assembler/mod.rs:759-791`): walk the data of one segment, tracking the
memory address, assigning unresolved labels their slot's address and
attempting value resolution with the updated store.  Returns the updated
store, the updated data, and whether this segment loop ORed anything into
`had_modifications`. -/
def passSegment (store : LabelStore) (cgl : Option Label) (address : MemoryAddress) :
    List LabeledMemoryValue → LabelStore × List LabeledMemoryValue × Bool
  | [] => (store, [], false)
  | datum :: rest =>
    -- `current_global_label = datum.label.filter(is Global).or(current_global_label)`
    let cgl' := (datum.label.filter Label.isGlobal).orElse (fun _ => cgl)
    -- label definition: resolve an unresolved label to this address
    let (store1, labelChanged) :=
      match datum.label with
      | some l =>
        if store.isResolved l then (store, false) else (store.resolveTo l address, true)
      | none => (store, false)
    -- label use: `had_modifications |= datum.try_resolve(memory_address)`
    let (datum', valueChanged) := datum.tryResolve store1 address
    let (store2, rest', restChanged) := passSegment store1 cgl' (address + 1) rest
    (store2, datum' :: rest', labelChanged || valueChanged || restChanged)

/-- `AssembledData::execute_label_resolution_pass`: note that
`had_modifications` is initialized to `true` in the source
(`src/assembler/mod.rs:758`), so the reported flag is the OR of `true` with
the per-segment changes. -/
def executeLabelResolutionPass (d : AssembledData) : AssembledData × Bool :=
  let hadModifications := true
  let (store, segments, changed) :=
    d.segments.foldl
      (fun (acc : LabelStore × SegmentMap × Bool) seg =>
        let (store', data', changed') := passSegment acc.1 none seg.1 seg.2
        (store', acc.2.1 ++ [(seg.1, data')], acc.2.2 || changed'))
      (d.labels, [], false)
  ({ d with labels := store, segments := segments }, hadModifications || changed)

/-- `MAX_PASSES` (`src/assembler/mod.rs:29`). -/
def MAX_PASSES : Nat := 10

/-- The resolution driver loop of `assemble` (`src/assembler/mod.rs:48-51`):
`while data.execute_label_resolution_pass() && pass_count < MAX_PASSES`.
The pass runs as part of the condition, so its mutations are kept even for
the final, failing check.  Returns the data and the number of passes
actually executed.  `fuel` bounds the recursion; `MAX_PASSES + 1` is always
enough because each recursive call increments `passCount` toward the
`passCount < MAX_PASSES` guard. -/
def assembleLoop (fuel : Nat) (d : AssembledData) (passCount : Nat) :
    AssembledData × Nat :=
  match fuel with
  | 0 => (d, 0)
  | fuel + 1 =>
    let (d', changed) := executeLabelResolutionPass d
    if changed && passCount < MAX_PASSES then
      let (d'', executed) := assembleLoop fuel d' (passCount + 1)
      (d'', executed + 1)
    else (d', 1)

/-- `segment_data.iter().map(try_resolve).try_collect::<Vec<u8>>()` from
`combine_segments`: resolve every slot, propagating the first error. -/
def resolveSegmentData : List LabeledMemoryValue → Except AssemblyError (List Nat)
  | [] => .ok []
  | lmv :: rest => do
    let b ← lmv.tryAsResolved
    let bs ← resolveSegmentData rest
    .ok (b :: bs)

/-- `AssembledData::combine_segments` (`src/assembler/mod.rs:460-483`),
as a fold over the sorted segment list with the accumulated output
`allData`. -/
def combineSegmentsAux (allData : List Nat) :
    SegmentMap → Except AssemblyError (List Nat)
  | [] => .ok allData
  | (startingAddress, segmentData) :: rest =>
    if startingAddress < (allData.length : Int) then
      .error (.sectionMismatch startingAddress allData.length)
    else
      match resolveSegmentData segmentData with
      | .error e => .error e
      | .ok resolvedSegmentData =>
        combineSegmentsAux
          (allData ++ List.replicate (startingAddress.toNat - allData.length) 0
            ++ resolvedSegmentData) rest

/-- `AssembledData::combine_segments`. -/
def AssembledData.combineSegments (d : AssembledData) : Except AssemblyError (List Nat) :=
  combineSegmentsAux [] d.segments


/-! ### The `assemble` driver (`src/assembler/mod.rs:34-53`) and the program
elements it consumes.

The embedded instruction sub-language covers the opcode families that
`assemble_instruction` encodes directly inside `src/assembler/mod.rs`
(operandless instructions, `MUL YA`, `DIV YA,X`, `DAA A`/`DAS A`).  The
remaining families are delegated to the `mov`/`arithmetic_logic`/`branching`/
`bit`/`r16bit` submodules, which are not among the provided sources; their
shared append helpers are embedded above and verified directly. -/

/-- The operandless mnemonics (`src/assembler/mod.rs:156-174`). -/
inductive OplessMnemonic where
  | brk | ret | ret1 | clrc | setc | notc | clrv | clrp | setp
  | ei | di | nop | sleep | stop
deriving DecidableEq, Repr

/-- The opcode table of `assemble_operandless_instruction`
(`src/assembler/mod.rs:299-319`). -/
def oplessOpcode : OplessMnemonic → Nat
  | .brk => 0x0F
  | .ret => 0x6F
  | .ret1 => 0x7F
  | .clrc => 0x60
  | .setc => 0x80
  | .notc => 0xED
  | .clrv => 0xE0
  | .clrp => 0x20
  | .setp => 0x40
  | .ei => 0xA0
  | .di => 0xC0
  | .nop => 0x00
  | .sleep => 0xEF
  | .stop => 0xFF

/-- The instruction shapes assembled directly in `src/assembler/mod.rs`. -/
inductive InstrOp where
  | operandless (m : OplessMnemonic) : InstrOp
  | mulYA : InstrOp
  | divYAX : InstrOp
  | daaA : InstrOp
  | dasA : InstrOp
deriving DecidableEq, Repr

/-- An instruction with its optional attached label. -/
structure Instruction where
  label : Option Label
  op : InstrOp
deriving DecidableEq, Repr

/-- `assemble_instruction` for the embedded opcode families:
operandless instructions (`assemble_operandless_instruction`), `MUL YA`
(0xCF), `DIV YA,X` (0x9E), `DAA A` (0xDF) and `DAS A` (0xBE). -/
def assembleInstruction (d : AssembledData) (i : Instruction) : AssembledData :=
  match i.op with
  | .operandless m => d.appendInstruction (oplessOpcode m) i.label
  | .mulYA => d.appendInstruction 0xCF i.label
  | .divYAX => d.appendInstruction 0x9E i.label
  | .daaA => d.appendInstruction 0xDF i.label
  | .dasA => d.appendInstruction 0xBE i.label

/-- Rust `slice.get(start .. stop)`: `Some` exactly when
`start <= stop && stop <= len`. -/
def rangeGet (data : List Nat) (start stop : Nat) : Option (List Nat) :=
  if start ≤ stop ∧ stop ≤ data.length then some ((data.drop start).take (stop - start))
  else none

/-- The binary-include slicing of `assemble_macro`
(`src/assembler/mod.rs:275-288`):
`max_number_of_bytes = binary_data.len() - range.offset()` (an unchecked
`usize` subtraction, embedded with its wrap-around), then
`get(offset .. min(offset.saturating_add(len), max_number_of_bytes))`. -/
def incbinSlice (data : List Nat) : Option (Nat × Nat) → Except AssemblyError (List Nat)
  | none => .ok data
  | some (offset, len) =>
    let maxNumberOfBytes := (2 ^ 64 + data.length - offset) % 2 ^ 64
    match rangeGet data offset (min (offset + len) maxNumberOfBytes) with
    | some sliced => .ok sliced
    | none => .error (.rangeOutOfBounds offset (offset + len) data.length)

/-- `AssembledData::slice_data_if_necessary`
(`src/assembler/directive.rs:172-197`):
`max_number_of_bytes = data.len().saturating_sub(range.offset())`, then
`get(offset .. min(offset.saturating_add(len), max_number_of_bytes))`.
The range is `(offset, length)`. -/
def sliceDataIfNecessary (data : List Nat) :
    Option (Nat × Nat) → Except AssemblyError (List Nat)
  | none => .ok data
  | some (offset, len) =>
    let maxNumberOfBytes := data.length - offset
    match rangeGet data offset (min (offset + len) maxNumberOfBytes) with
    | some sliced => .ok sliced
    | none => .error (.rangeOutOfBounds offset (offset + len) data.length)

/-- `MacroValue` (module `mcro` of the old generation; the enum definition
file is not among the provided sources, the variants and their fields are
taken from the `assemble_macro` match in `src/assembler/mod.rs:213-295`).
File contents that Rust obtains through I/O (`std::fs::read`, the WAV
reader and BRR encoder) are carried in the element itself. -/
inductive McroValue where
  | org (address : MemoryAddress) : McroValue
  | table (entrySize : Nat) (values : List Number) : McroValue
  | brr (encoded : List Nat) : McroValue
  | str (text : List Nat) (hasNullTerminator : Bool) : McroValue
  | assignLabel (label : Label) (value : Number) : McroValue
  | incbin (fileData : List Nat) (range : Option (Nat × Nat)) : McroValue
  | fin : McroValue
deriving DecidableEq, Repr

/-- A `Macro` program element: label plus value (span dropped). -/
structure Mcro where
  label : Option Label
  value : McroValue
deriving DecidableEq, Repr

/-- The table-emission loop of `assemble_macro`
(`src/assembler/mod.rs:217-228`): each value is appended with the current
label, entry size 1 as one unresolved byte and entry size 2 as two; the label
is cleared after the first value. -/
def assembleTable (d : AssembledData) (entrySize : Nat) (label : Option Label) :
    List Number → AssembledData
  | [] => d
  | value :: rest =>
    let d :=
      match entrySize with
      | 1 => d.append8BitsUnresolved value 0 label
      | _ => d.append16BitsUnresolved value label
    assembleTable d entrySize none rest

/-- The string-emission loop of `assemble_macro`
(`src/assembler/mod.rs:249-258`): each character byte is appended, only the
first carries the label; the optional NUL terminator carries the label only
when the text was empty. -/
def assembleString (d : AssembledData) (label : Option Label) (text : List Nat)
    (hasNullTerminator : Bool) : AssembledData :=
  let rec go (d : AssembledData) (isFirst : Bool) : List Nat → AssembledData × Bool
    | [] => (d, isFirst)
    | chr :: rest => go (d.append chr (if isFirst then label else none)) false rest
  let (d, isFirst) := go d true text
  if hasNullTerminator then d.append 0 (if isFirst then label else none) else d

/-- `assemble_macro` (`src/assembler/mod.rs:212-297`). -/
def assembleMcro (d : AssembledData) (m : Mcro) : Except AssemblyError AssembledData :=
  match m.value with
  | .org address => .ok (d.newSegment address)
  | .table entrySize values => .ok (assembleTable d entrySize m.label values)
  | .brr encoded => .ok (d.appendBytes encoded m.label)
  | .str text hasNullTerminator => .ok (assembleString d m.label text hasNullTerminator)
  | .assignLabel label value =>
    .ok { d with labels := (label.id, value.tryResolve d.labels) :: d.labels }
  | .incbin fileData range => do
    let binaryData ← incbinSlice fileData range
    .ok (d.appendBytes binaryData m.label)
  | .fin => .ok { d with shouldStop := true }

/-- `ProgramElement` as consumed by `assemble`. -/
inductive ProgramElement where
  | instruction (i : Instruction) : ProgramElement
  | mcro (m : Mcro) : ProgramElement
deriving DecidableEq, Repr

/-- One iteration of the element loop of `assemble`. -/
def assembleElement (d : AssembledData) : ProgramElement → Except AssemblyError AssembledData
  | .instruction i => .ok (assembleInstruction d i)
  | .mcro m => assembleMcro d m

/-- The element loop of `assemble` (`src/assembler/mod.rs:39-47`), stopping
after an element that set `should_stop`. -/
def assembleElements (d : AssembledData) :
    List ProgramElement → Except AssemblyError AssembledData
  | [] => .ok d
  | e :: rest => do
    let d' ← assembleElement d e
    if d'.shouldStop then .ok d' else assembleElements d' rest

/-- `assemble` (`src/assembler/mod.rs:34-53`): create the data, open a
segment at address 0, assemble all elements, run the resolution loop, and
combine the segments. -/
def assemble (elements : List ProgramElement) : Except AssemblyError (List Nat) := do
  let d := AssembledData.new.newSegment 0
  let d ← assembleElements d elements
  let (d, _) := assembleLoop (MAX_PASSES + 1) d 0
  d.combineSegments

/-! ### `Environment::parse` cycle handling
(`src/sema/mod.rs:112-132` and `src/parser/mod.rs:137-156`). -/

/-- The program-element shapes relevant to include tracking. -/
inductive ElementKind where
  | includeSource : ElementKind
  | other : ElementKind
deriving DecidableEq, Repr

/-- A parsed file, reduced to the data `Environment::parse` inspects on the
already-parsed path.  Files are identified by a numeric name. -/
structure AssemblyFileModel where
  name : Nat
  content : List ElementKind
deriving DecidableEq, Repr

/-- `AssemblyFile::has_unresolved_source_includes`
(`src/sema/mod.rs:624-626`, identically `src/parser/mod.rs:357-359`):
whether any element is an `IncludeSource`. -/
def AssemblyFileModel.hasUnresolvedSourceIncludes (f : AssemblyFileModel) : Bool :=
  f.content.any (· = .includeSource)

/-- The environment's file table (`files: HashMap<PathBuf, ..>`), keyed by
the file name. -/
abbrev FileTable := List (Nat × AssemblyFileModel)

/-- `find_file_by_source` reduced to the lookup by source-code name (the
lock/borrow failure cases concern mid-parse reentrancy and are not part of
the embedded, single-threaded path). -/
def FileTable.findFileBySource (files : FileTable) (name : Nat) :
    Option AssemblyFileModel :=
  (List.find? (fun p => p.1 = name) files).map (·.2)

/-- The outcome of `Environment::parse` on the embedded path: either the
already-parsed cached file, an error, or a fresh parse (the latter invokes
the LALRPOP parser, which is outside the provided sources). -/
inductive ParseOutcome where
  | cached (f : AssemblyFileModel) : ParseOutcome
  | failure (e : AssemblyError) : ParseOutcome
  | freshParse : ParseOutcome
deriving DecidableEq, Repr

/-- `Environment::parse` of the new generation (`src/sema/mod.rs:117-132`):
when the file is already present, an include cycle error is returned if it
still has unresolved include directives, otherwise the already-parsed file is
returned. -/
def semaEnvironmentParse (files : FileTable) (name : Nat) : ParseOutcome :=
  match files.findFileBySource name with
  | some alreadyParsedFile =>
    if alreadyParsedFile.hasUnresolvedSourceIncludes then .failure .includeCycle
    else .cached alreadyParsedFile
  | none => .freshParse

/-- `Environment::parse` of the old generation (`src/parser/mod.rs:142-156`):
when the file is already present, the branches are the other way around —
`Ok(already_parsed_file)` if it still has unresolved source includes,
`Err(IncludeCycle)` otherwise. -/
def parserEnvironmentParse (files : FileTable) (name : Nat) : ParseOutcome :=
  match files.findFileBySource name with
  | some alreadyParsedFile =>
    if alreadyParsedFile.hasUnresolvedSourceIncludes then .cached alreadyParsedFile
    else .failure .includeCycle
  | none => .freshParse

/-! ### The direct-page optimizer
(`AssemblyFile::optimize_direct_page_labels`, `src/sema/mod.rs:462-621`).
Embedded are the optimistic pass (step 2) and the fixed-point loop (step 3)
over the collected `ReferencedObject` list; the collection step 1 and the
rewriting step 4 only move data between the AST and this list. -/

/-- `InstructionOrReference` (`src/sema/mod.rs:466-478`). -/
inductive InstructionOrReference where
  | instruction (indexInSegment : Nat) (references : List (Label × Number))
      (isShort : Bool) : InstructionOrReference
  | reference (r : Label) : InstructionOrReference
deriving DecidableEq, Repr

/-- `ReferencedObject` (`src/sema/mod.rs:480-487`). -/
structure ReferencedObject where
  address : MemoryAddress
  segmentStart : MemoryAddress
  object : InstructionOrReference
deriving DecidableEq, Repr

/-- Whether the segment changed relative to the previous object, in which
case `address_offset` is reset (`if let Some(last_segment) = last_segment &&
*segment_start != last_segment`). -/
def segmentChanged (lastSegment : Option MemoryAddress) (segmentStart : MemoryAddress) :
    Bool :=
  match lastSegment with
  | some s => s ≠ segmentStart
  | none => false

/-- Step 2, the optimistic pass (`src/sema/mod.rs:539-553`): every
instruction is marked short and later addresses in the same segment shift
down by one per shortened instruction. -/
def optimisticPassGo (addressOffset : Int) (lastSegment : Option MemoryAddress) :
    List ReferencedObject → List ReferencedObject
  | [] => []
  | obj :: rest =>
    let addressOffset := if segmentChanged lastSegment obj.segmentStart then 0
      else addressOffset
    let address := obj.address + addressOffset
    match obj.object with
    | .instruction idx refs _ =>
      { address, segmentStart := obj.segmentStart,
        object := .instruction idx refs true }
        :: optimisticPassGo (addressOffset - 1) (some obj.segmentStart) rest
    | o =>
      { address, segmentStart := obj.segmentStart, object := o }
        :: optimisticPassGo addressOffset (some obj.segmentStart) rest

/-- Step 2 with initial offset 0 and no previous segment. -/
def optimisticPass (objs : List ReferencedObject) : List ReferencedObject :=
  optimisticPassGo 0 none objs

/-- `find_value_for_reference` (`src/sema/mod.rs:568-575`): the address of
the first reference object equal to the queried reference. -/
def findValueForReference (objs : List ReferencedObject) (queried : Label) :
    Option Int :=
  match objs with
  | [] => none
  | obj :: rest =>
    match obj.object with
    | .reference candidate =>
      if candidate = queried then some obj.address
      else findValueForReference rest queried
    | _ => findValueForReference rest queried

/-- The revert condition of one coercion pass
(`src/sema/mod.rs:586-590`): some operand value evaluates through the
resolver to `None` or to `Some(x)` with `x >= 0x100`. -/
def revertCondition (resolver : Label → Option Int) (refs : List (Label × Number)) :
    Bool :=
  refs.any (fun rv =>
    match rv.2.valueUsingResolver resolver with
    | none => true
    | some x => decide (0x100 ≤ x))

/-- The mutation fold of one pass of step 3 (`src/sema/mod.rs:577-599`):
addresses are shifted by the accumulated offset; an instruction whose
operands meet the revert condition is marked long (`is_short = false`), sets
`change` and shifts all later objects up by one byte. -/
def coercionPassGo (resolver : Label → Option Int) (addressOffset : Int)
    (lastSegment : Option MemoryAddress) :
    List ReferencedObject → List ReferencedObject × Bool
  | [] => ([], false)
  | obj :: rest =>
    let addressOffset := if segmentChanged lastSegment obj.segmentStart then 0
      else addressOffset
    let address := obj.address + addressOffset
    match obj.object with
    | .instruction idx refs isShort =>
      let bad := revertCondition resolver refs
      let (rest', restChanged) :=
        coercionPassGo resolver (if bad then addressOffset + 1 else addressOffset)
          (some obj.segmentStart) rest
      ({ address, segmentStart := obj.segmentStart,
         object := .instruction idx refs (if bad then false else isShort) } :: rest',
        bad || restChanged)
    | o =>
      let (rest', restChanged) :=
        coercionPassGo resolver addressOffset (some obj.segmentStart) rest
      ({ address, segmentStart := obj.segmentStart, object := o } :: rest', restChanged)

/-- One pass of step 3: the resolver is built from a snapshot of the current
objects (`all_references` is cloned before the mutation loop). -/
def coercionPass (objs : List ReferencedObject) : List ReferencedObject × Bool :=
  coercionPassGo (findValueForReference objs) 0 none objs

/-- The fixed-point loop of step 3 (`src/sema/mod.rs:555-602`):
`while change && iteration <= max_coercion_passes`.  Returns the final
objects and the number of passes executed. -/
def coercionLoopGo (maxCoercionPasses : Nat) (objs : List ReferencedObject)
    (iteration : Nat) : List ReferencedObject × Nat :=
  if iteration ≤ maxCoercionPasses then
    let (objs', changed) := coercionPass objs
    if changed then
      let (objs'', executed) := coercionLoopGo maxCoercionPasses objs' (iteration + 1)
      (objs'', executed + 1)
    else (objs', 1)
  else (objs, 0)
termination_by maxCoercionPasses + 1 - iteration
decreasing_by omega

/-- Steps 2 and 3 of `optimize_direct_page_labels`: the optimistic pass
followed by the bounded fixed-point loop, with `iteration` starting at 1 and
`change` starting `true`. -/
def optimizeDirectPageLabels (maxCoercionPasses : Nat)
    (objs : List ReferencedObject) : List ReferencedObject × Nat :=
  coercionLoopGo maxCoercionPasses (optimisticPass objs) 1


/-! ### Helper lemmas -/

/-- The resolution pass flag is the OR of the initial `true` with the
per-segment changes, hence always `true`. -/
lemma executeLabelResolutionPass_snd (d : AssembledData) :
    (executeLabelResolutionPass d).2 = true := by
  unfold executeLabelResolutionPass
  simp

/-- With always-`true` pass reports, the driver loop spends all of its
budget: it executes exactly `fuel` passes whenever `passCount + fuel`
equals `MAX_PASSES + 1`. -/
lemma assembleLoop_count (fuel : Nat) :
    ∀ (d : AssembledData) (passCount : Nat), 0 < fuel →
      passCount + fuel = MAX_PASSES + 1 → (assembleLoop fuel d passCount).2 = fuel := by
  induction fuel with
  | zero => intro d p h; omega
  | succ fuel ih =>
    intro d p _ hsum
    unfold assembleLoop
    rcases hE : executeLabelResolutionPass d with ⟨d', changed⟩
    have hch : changed = true := by
      have h2 := executeLabelResolutionPass_snd d
      rw [hE] at h2
      exact h2
    subst hch
    by_cases hp : p < MAX_PASSES
    · have h0 : 0 < fuel := by omega
      have hrec := ih d' (p + 1) h0 (by omega)
      simp [hp, hrec]
    · have hfuel : fuel = 0 := by omega
      simp [hp, hfuel]

/-! ### C9 -/

/-- C9: once a memory slot's value is a resolved literal, `try_resolve`
performs no modification and reports no change, for every memory address and
label store. -/
theorem resolved_slot_is_stable (store : LabelStore) (address : MemoryAddress)
    (lmv : LabeledMemoryValue) (v : Nat) (h : lmv.value = MemoryValue.resolved v) :
    lmv.tryResolve store address = (lmv, false) := by
  unfold LabeledMemoryValue.tryResolve
  rw [h]

/-- Witness for C9 at a concrete resolved slot. -/
theorem resolved_slot_is_stable_witness :
    LabeledMemoryValue.tryResolve [] 7 { label := none, value := .resolved 42 } =
      ({ label := none, value := .resolved 42 }, false) :=
  resolved_slot_is_stable [] 7 { label := none, value := .resolved 42 } 42 rfl

/-! ### C4 -/

/-- C4: contrary to the claim, `execute_label_resolution_pass` reports a
modification even on data it did not touch (on fresh empty data it returns
the data unchanged together with `true`), it reports `true` for every input
because `had_modifications` is initialized to `true`, and the `assemble`
driver therefore always executes `MAX_PASSES + 1 = 11` resolution passes
instead of stopping when nothing changed. -/
theorem resolution_pass_always_reports_change :
    executeLabelResolutionPass AssembledData.new = (AssembledData.new, true) ∧
    (∀ d : AssembledData, (executeLabelResolutionPass d).2 = true) ∧
    (∀ d : AssembledData,
      (assembleLoop (MAX_PASSES + 1) d 0).2 = MAX_PASSES + 1) := by
  refine ⟨rfl, executeLabelResolutionPass_snd, fun d => ?_⟩
  exact assembleLoop_count (MAX_PASSES + 1) d 0 (by omega) (by omega)

/-! ### C5 -/

/-- C5: `Environment::parse` of `src/sema/mod.rs` handles an already-present
file as the claim states (include-cycle error when the file still has
unresolved include directives, the cached file otherwise); the older copy in
`src/parser/mod.rs` has the two branches swapped, contradicting its own
documentation comment: for a fully-resolved cached file it reports an
include cycle, and for a file that still has unresolved includes it returns
the cached file. -/
theorem parse_cached_file_branches (files : FileTable) (name : Nat)
    (f : AssemblyFileModel) (h : files.findFileBySource name = some f) :
    (f.hasUnresolvedSourceIncludes = true →
      semaEnvironmentParse files name = .failure .includeCycle) ∧
    (f.hasUnresolvedSourceIncludes = false →
      semaEnvironmentParse files name = .cached f) ∧
    parserEnvironmentParse [(0, ⟨0, [.other]⟩)] 0 = .failure .includeCycle ∧
    parserEnvironmentParse [(0, ⟨0, [.includeSource]⟩)] 0 =
      .cached ⟨0, [.includeSource]⟩ := by
  refine ⟨fun hu => ?_, fun hu => ?_, by decide, by decide⟩
  · simp [semaEnvironmentParse, h, hu]
  · simp [semaEnvironmentParse, h, hu]

/-- Witness for C5 on a concrete one-file table. -/
theorem parse_cached_file_branches_witness :
    FileTable.findFileBySource [(5, ⟨5, []⟩)] 5 = some ⟨5, []⟩ ∧
    semaEnvironmentParse [(5, ⟨5, []⟩)] 5 = .cached ⟨5, []⟩ :=
  ⟨by decide,
    (parse_cached_file_branches [(5, ⟨5, []⟩)] 5 ⟨5, []⟩ (by decide)).2.1 (by decide)⟩

/-! ### C6 -/

/-- C6: on the spec's own example — the six-byte file `00 11 22 33 44 55`
with range offset 2, length 3 — both slicing implementations return only
`22 33` instead of the specified `22 33 44`, because the slice end index is
capped at `len - offset` (a byte count mistaken for an end index); moreover
the in-bounds range (offset 4, length 0) is rejected as out of bounds, and
the out-of-bounds range (offset 0, length 100) is accepted. -/
theorem incbin_slice_end_index_bug :
    sliceDataIfNecessary [0x00, 0x11, 0x22, 0x33, 0x44, 0x55] (some (2, 3)) =
      .ok [0x22, 0x33] ∧
    incbinSlice [0x00, 0x11, 0x22, 0x33, 0x44, 0x55] (some (2, 3)) =
      .ok [0x22, 0x33] ∧
    sliceDataIfNecessary [0x00, 0x11, 0x22, 0x33, 0x44, 0x55] (some (4, 0)) =
      .error (.rangeOutOfBounds 4 4 6) ∧
    sliceDataIfNecessary [0x00, 0x11, 0x22, 0x33, 0x44, 0x55] (some (0, 100)) =
      .ok [0x00, 0x11, 0x22, 0x33, 0x44, 0x55] := by
  exact ⟨rfl, rfl, rfl, rfl⟩

/-! ### Segment-map and append lemmas -/

lemma SegmentMap.lookup_pushAt (m : SegmentMap) (key : MemoryAddress)
    (lmv : LabeledMemoryValue) :
    (m.pushAt key lmv).lookup key = (m.lookup key).map (· ++ [lmv]) := by
  induction m with
  | nil => rfl
  | cons head rest ih =>
    rcases head with ⟨k, v⟩
    by_cases hk : k = key
    · subst hk
      simp [SegmentMap.pushAt, SegmentMap.lookup, List.find?_cons]
    · simp only [SegmentMap.pushAt, SegmentMap.lookup, List.map_cons, if_neg hk] at ih ⊢
      rw [List.find?_cons_of_neg, List.find?_cons_of_neg]
      · exact ih
      · simpa using hk
      · simpa using hk

lemma AssembledData.append_labels (d : AssembledData) (v : Nat) (l : Option Label) :
    (d.append v l).labels = d.labels := by
  cases h : d.currentSegmentStart <;> simp [AssembledData.append, h]

lemma AssembledData.pushValue_labels (d : AssembledData) (mv : MemoryValue)
    (l : Option Label) : (d.pushValue mv l).labels = d.labels := by
  cases h : d.currentSegmentStart <;> simp [AssembledData.pushValue, h]

lemma AssembledData.append_currentSegmentStart (d : AssembledData) (v : Nat)
    (l : Option Label) : (d.append v l).currentSegmentStart = d.currentSegmentStart := by
  cases h : d.currentSegmentStart <;> simp [AssembledData.append, h]

lemma AssembledData.pushValue_currentSegmentStart (d : AssembledData) (mv : MemoryValue)
    (l : Option Label) :
    (d.pushValue mv l).currentSegmentStart = d.currentSegmentStart := by
  cases h : d.currentSegmentStart <;> simp [AssembledData.pushValue, h]

lemma AssembledData.append_lookup (d : AssembledData) (v : Nat) (l : Option Label)
    (start : MemoryAddress) (seg : List LabeledMemoryValue)
    (h1 : d.currentSegmentStart = some start)
    (h2 : d.segments.lookup start = some seg) :
    (d.append v l).segments.lookup start = some (seg ++ [⟨l, .resolved v⟩]) := by
  simp [AssembledData.append, h1, SegmentMap.lookup_pushAt, h2]

lemma AssembledData.pushValue_lookup (d : AssembledData) (mv : MemoryValue)
    (l : Option Label) (start : MemoryAddress) (seg : List LabeledMemoryValue)
    (h1 : d.currentSegmentStart = some start)
    (h2 : d.segments.lookup start = some seg) :
    (d.pushValue mv l).segments.lookup start = some (seg ++ [⟨l, mv⟩]) := by
  simp [AssembledData.pushValue, h1, SegmentMap.lookup_pushAt, h2]

/-! ### Byte-extraction lemmas -/

lemma emod_toNat_ofNat (A k : Nat) : ((A : Int).emod (k : Int)).toNat = A % k := by
  rw [show (A : Int).emod (k : Int) = (A : Int) % (k : Int) from rfl,
    ← Int.natCast_mod, Int.toNat_natCast]

lemma byteOf_ofNat (A b : Nat) :
    byteOf (A : Int) b = A % 2 ^ (8 * (b + 1)) / 2 ^ (8 * b) := by
  unfold byteOf
  rw [show ((2 : Int) ^ (8 * (b + 1))) = ((2 ^ (8 * (b + 1)) : Nat) : Int) by norm_cast]
  rw [emod_toNat_ofNat]

lemma byteOf_zero_ofNat (A : Nat) : byteOf (A : Int) 0 = A % 256 := by
  rw [byteOf_ofNat]
  norm_num

lemma byteOf_one_ofNat (A : Nat) : byteOf (A : Int) 1 = A % 65536 / 256 := by
  rw [byteOf_ofNat]
  norm_num

lemma maskedHighByte_ofNat (A : Nat) : maskedHighByte (A : Int) = A % 8192 / 256 := by
  unfold maskedHighByte
  rw [show ((2 : Int) ^ 13) = ((2 ^ 13 : Nat) : Int) by norm_cast]
  rw [emod_toNat_ofNat]
  norm_num

lemma intLor_ofNat (A B : Nat) : Int.lor (A : Int) (B : Int) = ((A ||| B : Nat) : Int) := rfl

lemma bitShift_cast (B : Nat) : ((B : Int)) * 2 ^ 13 = ((B <<< 13 : Nat) : Int) := by
  rw [Nat.shiftLeft_eq]
  push_cast
  ring

/-- Low byte of `x | (b << 13)`: the shifted bit index does not touch the
low 8 bits. -/
lemma lor_shift13_mod256 (A B : Nat) : (A ||| B <<< 13) % 256 = A % 256 := by
  have h : (A ||| B <<< 13) % 2 ^ 8 = A % 2 ^ 8 := by
    apply Nat.eq_of_testBit_eq
    intro i
    rw [Nat.testBit_mod_two_pow, Nat.testBit_mod_two_pow, Nat.testBit_lor,
      Nat.testBit_shiftLeft]
    rcases lt_or_ge i 8 with hi | hi
    · have h13 : ¬(13 ≤ i) := by omega
      simp [hi, h13]
    · have h8 : ¬(i < 8) := by omega
      simp [h8]
  simpa using h

/-- High byte of `x | (b << 13)` for a 13-bit `x` and a 3-bit `b`: the
result packs the bit index into the top three bits. -/
lemma lor_shift13_highByte (A B : Nat) (hA : A < 2 ^ 13) (hB : B < 2 ^ 3) :
    (A ||| B <<< 13) % 2 ^ 16 / 2 ^ 8 = A % 2 ^ 13 / 2 ^ 8 ||| B <<< 5 := by
  apply Nat.eq_of_testBit_eq
  intro i
  rw [← Nat.shiftRight_eq_div_pow, ← Nat.shiftRight_eq_div_pow,
    Nat.testBit_shiftRight, Nat.testBit_lor, Nat.testBit_shiftRight,
    Nat.testBit_mod_two_pow, Nat.testBit_mod_two_pow, Nat.testBit_lor,
    Nat.testBit_shiftLeft, Nat.testBit_shiftLeft]
  have hsub : 8 + i - 13 = i - 5 := by omega
  rw [hsub]
  rcases lt_or_ge i 5 with hi | hi
  · have h1 : 8 + i < 16 := by omega
    have h2 : 8 + i < 13 := by omega
    have h3 : ¬(13 ≤ 8 + i) := by omega
    have h4 : ¬(5 ≤ i) := by omega
    simp [h1, h2, h3, h4]
  · rcases lt_or_ge i 8 with hi8 | hi8
    · have h1 : 8 + i < 16 := by omega
      have h2 : ¬(8 + i < 13) := by omega
      have h3 : 13 ≤ 8 + i := by omega
      have hAbit : A.testBit (8 + i) = false :=
        Nat.testBit_lt_two_pow (lt_of_lt_of_le hA (Nat.pow_le_pow_right (by norm_num) (by omega)))
      simp [h1, h2, h3, hi, hAbit]
    · have h1 : ¬(8 + i < 16) := by omega
      have h2 : ¬(8 + i < 13) := by omega
      have hBbit : B.testBit (i - 5) = false :=
        Nat.testBit_lt_two_pow (lt_of_lt_of_le hB (Nat.pow_le_pow_right (by norm_num) (by omega)))
      simp [h1, h2, hBbit]
/-- Lifting `AssembledData.withBitIndex` to the natural numbers. -/
lemma AssembledData.withBitIndex_ofNat (A b : Nat) :
    AssembledData.withBitIndex (A : Int) b = ((A ||| b <<< 13 : Nat) : Int) := by
  unfold AssembledData.withBitIndex
  rw [Nat.shiftLeft_eq]
  norm_cast

/-- The low byte of `value | (bit_index << 13)` is the low byte of the
value. -/
lemma AssembledData.withBitIndex_byte0 (a : Int) (b : Nat) (h0 : 0 ≤ a) :
    byteOf (AssembledData.withBitIndex a b) 0 = (a.emod 256).toNat := by
  obtain ⟨A, rfl⟩ : ∃ A : Nat, a = (A : Int) := ⟨a.toNat, (Int.toNat_of_nonneg h0).symm⟩
  rw [AssembledData.withBitIndex_ofNat, byteOf_zero_ofNat, lor_shift13_mod256]
  have h := emod_toNat_ofNat A 256
  norm_num at h ⊢
  omega

/-- The high byte of `value | (bit_index << 13)` for a 13-bit value and a
3-bit bit index is the packed byte `((value & 0x1F00) >> 8) | (b << 5)`. -/
lemma AssembledData.withBitIndex_byte1 (a : Int) (b : Nat) (h0 : 0 ≤ a) (h13 : a < 2 ^ 13)
    (hb : b < 8) :
    byteOf (AssembledData.withBitIndex a b) 1 = maskedHighByte a ||| b <<< 5 := by
  obtain ⟨A, rfl⟩ : ∃ A : Nat, a = (A : Int) := ⟨a.toNat, (Int.toNat_of_nonneg h0).symm⟩
  have hA : A < 2 ^ 13 := by exact_mod_cast h13
  rw [AssembledData.withBitIndex_ofNat, byteOf_one_ofNat, maskedHighByte_ofNat]
  have h2 := lor_shift13_highByte A b hA (by omega)
  norm_num at h2 ⊢
  exact h2

/-! ### C2 -/

/-- C2: a `NumberRelative` slot at address `A` whose expression resolves to
target `T` is rewritten to the literal byte `(T - (A + 1)) mod 256`; and for
a branch emitted through `append_instruction_with_relative_label` (2-byte
encoding: opcode at `P`, operand at `P + 1`) with an operand that is still
unresolved at emission time, the operand slot later resolves to
`(T - (P + 2)) mod 256`, which is `(T - (P + L)) mod 256` for the encoded
length `L = 2`. -/
theorem relative_slot_and_branch_offset (store : LabelStore) (n : Number)
    (target : Int) (address : MemoryAddress)
    (h : n.tryResolve store = .literal target) :
    (MemoryValue.numberRelative n).tryResolve store address =
      .resolved ((target - (address + 1)).emod 256).toNat ∧
    ∀ (d : AssembledData) (opcode : Nat) (label : Option Label)
      (start : MemoryAddress) (seg : List LabeledMemoryValue),
      d.currentSegmentStart = some start →
      d.segments.lookup start = some seg →
      n.tryResolve d.labels = n →
      (∀ v : Int, n ≠ .literal v) →
      (d.appendInstructionWithRelativeLabel opcode n label).segments.lookup start =
          some (seg ++ [⟨label, .resolved opcode⟩, ⟨none, .numberRelative n⟩]) ∧
        (MemoryValue.numberRelative n).tryResolve store (start + seg.length + 1) =
          .resolved ((target - (start + seg.length + 2)).emod 256).toNat := by
  constructor
  · simp only [MemoryValue.tryResolve, h]
  · intro d opcode label start seg hcs hseg hem hnl
    constructor
    · have hlook := AssembledData.append_lookup d opcode label start seg hcs hseg
      have hcs' : (d.append opcode label).currentSegmentStart = some start := by
        rw [AssembledData.append_currentSegmentStart]
        exact hcs
      simp only [AssembledData.appendInstructionWithRelativeLabel]
      rw [AssembledData.append_labels, hem]
      cases n with
      | literal v => exact absurd rfl (hnl v)
      | ref l =>
        have hp := AssembledData.pushValue_lookup (d.append opcode label)
          (.numberRelative (.ref l)) none start _ hcs' hlook
        simpa [AssembledData.appendRelativeUnresolved] using hp
      | unary op m =>
        have hp := AssembledData.pushValue_lookup (d.append opcode label)
          (.numberRelative (.unary op m)) none start _ hcs' hlook
        simpa [AssembledData.appendRelativeUnresolved] using hp
      | binary op l r =>
        have hp := AssembledData.pushValue_lookup (d.append opcode label)
          (.numberRelative (.binary op l r)) none start _ hcs' hlook
        simpa [AssembledData.appendRelativeUnresolved] using hp
    · simp only [MemoryValue.tryResolve, h]
      have harith : (start + (seg.length : Int) + 1 + 1) = start + seg.length + 2 := by
        ring
      rw [harith]

/-- Witness for C2: a relative slot at address 3 targeting address 5
resolves to offset 1. -/
theorem relative_slot_and_branch_offset_witness :
    (MemoryValue.numberRelative (.ref (.global 0))).tryResolve
      [(0, Number.literal 5)] 3 = .resolved 1 := by
  have h := (relative_slot_and_branch_offset [(0, Number.literal 5)]
    (.ref (.global 0)) 5 3 (by decide)).1
  simpa using h

/-! ### C7 -/

/-- C7: for a bit-addressable operation on an absolute-bit addressing mode
with 13-bit address `a` and bit index `b < 8`, the emitted operand bytes are
the low byte of `a` followed by the packed high byte
`((a & 0x1F00) >> 8) | (b << 5)`:
a deferred `NumberHighByteWithContainedBitIndex` slot resolves to exactly
that packed byte (for every target and address), and an operand already
resolved at emission time emits the same two bytes through
`append_16_bits(value | (bit_index << 13))`; an operand that is still
unresolved at emission defers both bytes. -/
theorem bit_index_packed_operand (store : LabelStore) (n : Number)
    (target : Int) (address : MemoryAddress) (b : Nat)
    (h : n.tryResolve store = .literal target) (hb : b < 8) :
    (MemoryValue.numberHighByteWithContainedBitIndex n b).tryResolve store address =
      .resolved (maskedHighByte target ||| b <<< 5) ∧
    (∀ (d : AssembledData) (opcode : Nat) (label : Option Label)
      (start : MemoryAddress) (seg : List LabeledMemoryValue) (a : Int),
      0 ≤ a → a < 2 ^ 13 →
      d.currentSegmentStart = some start →
      d.segments.lookup start = some seg →
      n.tryResolve d.labels = .literal a →
      (d.appendInstructionWith16BitOperandAndBitIndex opcode n b label).segments.lookup
          start =
        some (seg ++ [⟨label, .resolved opcode⟩,
          ⟨none, .resolved (a.emod 256).toNat⟩,
          ⟨none, .resolved (maskedHighByte a ||| b <<< 5)⟩])) ∧
    (∀ (d : AssembledData) (opcode : Nat) (label : Option Label)
      (start : MemoryAddress) (seg : List LabeledMemoryValue),
      d.currentSegmentStart = some start →
      d.segments.lookup start = some seg →
      n.tryResolve d.labels = n →
      (∀ v : Int, n ≠ .literal v) →
      (d.appendInstructionWith16BitOperandAndBitIndex opcode n b label).segments.lookup
          start =
        some (seg ++ [⟨label, .resolved opcode⟩, ⟨none, .number n 0⟩,
          ⟨none, .numberHighByteWithContainedBitIndex n b⟩])) := by
  refine ⟨?_, ?_, ?_⟩
  · simp only [MemoryValue.tryResolve, h]
  · intro d opcode label start seg a h0 h13 hcs hseg hres
    have h1 := AssembledData.append_lookup d opcode label start seg hcs hseg
    have hcs1 : (d.append opcode label).currentSegmentStart = some start := by
      rw [AssembledData.append_currentSegmentStart]
      exact hcs
    have h2 := AssembledData.append_lookup (d.append opcode label)
      (byteOf (AssembledData.withBitIndex a b) 0) none start _ hcs1 h1
    have hcs2 : ((d.append opcode label).append
        (byteOf (AssembledData.withBitIndex a b) 0) none).currentSegmentStart = some start := by
      rw [AssembledData.append_currentSegmentStart]
      exact hcs1
    have h3 := AssembledData.append_lookup _
      (byteOf (AssembledData.withBitIndex a b) 1) none start _ hcs2 h2
    simp only [AssembledData.appendInstructionWith16BitOperandAndBitIndex]
    rw [AssembledData.append_labels, hres]
    simpa [AssembledData.append16Bits, AssembledData.withBitIndex_byte0 a b h0,
      AssembledData.withBitIndex_byte1 a b h0 h13 hb] using h3
  · intro d opcode label start seg hcs hseg hem hnl
    have h1 := AssembledData.append_lookup d opcode label start seg hcs hseg
    have hcs1 : (d.append opcode label).currentSegmentStart = some start := by
      rw [AssembledData.append_currentSegmentStart]
      exact hcs
    simp only [AssembledData.appendInstructionWith16BitOperandAndBitIndex]
    rw [AssembledData.append_labels, hem]
    cases n with
    | literal v => exact absurd rfl (hnl v)
    | ref l =>
      have h2 := AssembledData.pushValue_lookup (d.append opcode label)
        (.number (.ref l) 0) none start _ hcs1 h1
      have hcs2 := AssembledData.pushValue_currentSegmentStart (d.append opcode label)
        (.number (.ref l) 0) none
      rw [hcs1] at hcs2
      have h3 := AssembledData.pushValue_lookup _
        (.numberHighByteWithContainedBitIndex (.ref l) b) none start _ hcs2 h2
      simpa [AssembledData.append8BitsUnresolved,
        AssembledData.appendUnresolvedWithBitIndex] using h3
    | unary op m =>
      have h2 := AssembledData.pushValue_lookup (d.append opcode label)
        (.number (.unary op m) 0) none start _ hcs1 h1
      have hcs2 := AssembledData.pushValue_currentSegmentStart (d.append opcode label)
        (.number (.unary op m) 0) none
      rw [hcs1] at hcs2
      have h3 := AssembledData.pushValue_lookup _
        (.numberHighByteWithContainedBitIndex (.unary op m) b) none start _ hcs2 h2
      simpa [AssembledData.append8BitsUnresolved,
        AssembledData.appendUnresolvedWithBitIndex] using h3
    | binary op l r =>
      have h2 := AssembledData.pushValue_lookup (d.append opcode label)
        (.number (.binary op l r) 0) none start _ hcs1 h1
      have hcs2 := AssembledData.pushValue_currentSegmentStart (d.append opcode label)
        (.number (.binary op l r) 0) none
      rw [hcs1] at hcs2
      have h3 := AssembledData.pushValue_lookup _
        (.numberHighByteWithContainedBitIndex (.binary op l r) b) none start _ hcs2 h2
      simpa [AssembledData.append8BitsUnresolved,
        AssembledData.appendUnresolvedWithBitIndex] using h3

/-- Witness for C7: a deferred bit-packed slot for target 0x1234 with bit
index 3 resolves to `((0x1234 & 0x1F00) >> 8) | (3 << 5) = 0x72`. -/
theorem bit_index_packed_operand_witness :
    (MemoryValue.numberHighByteWithContainedBitIndex (.ref (.global 0)) 3).tryResolve
      [(0, Number.literal 0x1234)] 9 = .resolved 0x72 := by
  have h := (bit_index_packed_operand [(0, Number.literal 0x1234)]
    (.ref (.global 0)) 0x1234 9 3 (by decide) (by omega)).1
  simpa using h

/-! ### C8 -/

/-- Every instruction object carries a `true` short flag. -/
def allInstructionsShort (objs : List ReferencedObject) : Prop :=
  ∀ o ∈ objs, ∀ idx refs s, o.object = .instruction idx refs s → s = true

/-- Positionwise effect of one coercion pass on an object: the segment and
the instruction payload are unchanged and the short flag becomes
`old && !revertCondition` — it flips exactly from short to long, exactly when
some operand value resolves to `None` or to at least 0x100. -/
def passShape (resolver : Label → Option Int) (before after : ReferencedObject) :
    Prop :=
  after.segmentStart = before.segmentStart ∧
  match before.object, after.object with
  | .instruction i r s, .instruction i' r' s' =>
    i' = i ∧ r' = r ∧ s' = (s && !revertCondition resolver r)
  | .reference c, .reference c' => c' = c
  | _, _ => False

/-- Positionwise monotonicity across any number of passes: the shape is
preserved and the short flag only ever reverts (it is `true` afterwards only
if it was `true` before). -/
def shortOnlyReverts (before after : ReferencedObject) : Prop :=
  after.segmentStart = before.segmentStart ∧
  match before.object, after.object with
  | .instruction i r s, .instruction i' r' s' =>
    i' = i ∧ r' = r ∧ (s' = true → s = true)
  | .reference c, .reference c' => c' = c
  | _, _ => False

lemma shortOnlyReverts_refl (o : ReferencedObject) : shortOnlyReverts o o := by
  refine ⟨rfl, ?_⟩
  cases o.object <;> simp

lemma shortOnlyReverts_trans {a b c : ReferencedObject}
    (hab : shortOnlyReverts a b) (hbc : shortOnlyReverts b c) :
    shortOnlyReverts a c := by
  obtain ⟨hs1, h1⟩ := hab
  obtain ⟨hs2, h2⟩ := hbc
  refine ⟨hs2.trans hs1, ?_⟩
  cases ha : a.object <;> cases hb : b.object <;> cases hc : c.object <;>
    rw [ha, hb] at h1 <;> rw [hb, hc] at h2 <;> simp_all

lemma passShape_shortOnlyReverts {resolver : Label → Option Int}
    {a b : ReferencedObject} (h : passShape resolver a b) : shortOnlyReverts a b := by
  obtain ⟨hs, h1⟩ := h
  refine ⟨hs, ?_⟩
  cases ha : a.object <;> cases hb : b.object <;> rw [ha, hb] at h1 <;> simp_all

lemma forall₂_shortOnlyReverts_trans {a b c : List ReferencedObject}
    (hab : List.Forall₂ shortOnlyReverts a b) (hbc : List.Forall₂ shortOnlyReverts b c) :
    List.Forall₂ shortOnlyReverts a c := by
  induction hab generalizing c with
  | nil =>
    cases hbc
    exact .nil
  | cons h t ih =>
    cases hbc with
    | cons h2 t2 => exact .cons (shortOnlyReverts_trans h h2) (ih t2)

/-- The optimistic pass marks every instruction short. -/
lemma optimisticPassGo_allShort :
    ∀ (objs : List ReferencedObject) (off : Int) (last : Option MemoryAddress),
      allInstructionsShort (optimisticPassGo off last objs) := by
  intro objs
  induction objs with
  | nil => intro off last o ho; simp [optimisticPassGo] at ho
  | cons obj rest ih =>
    intro off last o ho idx refs s hobj
    cases hob : obj.object with
    | instruction i r sh =>
      rw [optimisticPassGo, hob] at ho
      rcases List.mem_cons.1 ho with rfl | hmem
      · simp at hobj
        exact hobj.2.2
      · exact ih _ _ o hmem idx refs s hobj
    | reference c =>
      rw [optimisticPassGo, hob] at ho
      rcases List.mem_cons.1 ho with rfl | hmem
      · simp at hobj
      · exact ih _ _ o hmem idx refs s hobj

/-- One coercion pass acts positionwise as described by `passShape`. -/
lemma coercionPassGo_shape (resolver : Label → Option Int) :
    ∀ (objs : List ReferencedObject) (off : Int) (last : Option MemoryAddress),
      List.Forall₂ (passShape resolver) objs (coercionPassGo resolver off last objs).1 := by
  intro objs
  induction objs with
  | nil => intro off last; simp [coercionPassGo]
  | cons obj rest ih =>
    intro off last
    cases hob : obj.object with
    | instruction i r sh =>
      rw [coercionPassGo, hob]
      refine List.Forall₂.cons ⟨rfl, ?_⟩ (ih _ _)
      rw [hob]
      refine ⟨rfl, rfl, ?_⟩
      cases hbad : revertCondition resolver r <;> simp
    | reference c =>
      rw [coercionPassGo, hob]
      refine List.Forall₂.cons ⟨rfl, ?_⟩ (ih _ _)
      rw [hob]

/-- The fixed-point loop executes at most `max + 1 - iteration` passes. -/
lemma coercionLoopGo_count :
    ∀ (k maxPasses : Nat) (objs : List ReferencedObject) (iteration : Nat),
      maxPasses + 1 - iteration ≤ k →
      (coercionLoopGo maxPasses objs iteration).2 ≤ maxPasses + 1 - iteration := by
  intro k
  induction k with
  | zero =>
    intro maxPasses objs it hk
    rw [coercionLoopGo]
    have hit : ¬(it ≤ maxPasses) := by omega
    simp [hit]
  | succ k ih =>
    intro maxPasses objs it hk
    rw [coercionLoopGo]
    by_cases hit : it ≤ maxPasses
    · simp only [hit, if_pos]
      rcases hch : coercionPass objs with ⟨objs', changed⟩
      cases changed with
      | true =>
        have hrec := ih maxPasses objs' (it + 1) (by omega)
        simp only [if_pos]
        omega
      | false => simp; omega
    · simp [hit]

/-- The fixed-point loop only ever reverts short flags, positionwise. -/
lemma coercionLoopGo_monotone :
    ∀ (k maxPasses : Nat) (objs : List ReferencedObject) (iteration : Nat),
      maxPasses + 1 - iteration ≤ k →
      List.Forall₂ shortOnlyReverts objs (coercionLoopGo maxPasses objs iteration).1 := by
  intro k
  induction k with
  | zero =>
    intro maxPasses objs it hk
    rw [coercionLoopGo]
    have hit : ¬(it ≤ maxPasses) := by omega
    simp only [hit, if_neg, if_false]
    exact List.forall₂_same.2 (fun o _ => shortOnlyReverts_refl o)
  | succ k ih =>
    intro maxPasses objs it hk
    rw [coercionLoopGo]
    by_cases hit : it ≤ maxPasses
    · simp only [hit, if_pos]
      rcases hch : coercionPass objs with ⟨objs', changed⟩
      have hpass : List.Forall₂ shortOnlyReverts objs objs' := by
        have h1 := coercionPassGo_shape (findValueForReference objs) objs 0 none
        rw [show (coercionPassGo (findValueForReference objs) 0 none objs) =
          coercionPass objs from rfl, hch] at h1
        exact List.Forall₂.imp (fun a b h => passShape_shortOnlyReverts h) h1
      cases changed with
      | true =>
        have hrec := ih maxPasses objs' (it + 1) (by omega)
        simp only [if_pos]
        exact forall₂_shortOnlyReverts_trans hpass hrec
      | false =>
        simpa using hpass
    · simp only [hit, if_neg, if_false]
      exact List.forall₂_same.2 (fun o _ => shortOnlyReverts_refl o)

/-- C8: within one invocation of the direct-page optimizer, the initial
optimistic pass marks every instruction short; each pass of the fixed-point
loop changes an instruction's short flag to `old && !revertCondition` — it
can only flip from short back to long, and does so exactly when one of the
operand values evaluates through the tentative-address resolver to `None` or
to a value of at least 0x100; across the whole loop flags only revert; and
the loop executes at most the configured maximum number of passes. -/
theorem dp_optimizer_monotone_and_bounded (maxPasses : Nat)
    (objs : List ReferencedObject) :
    allInstructionsShort (optimisticPass objs) ∧
    (∀ (resolver : Label → Option Int) (addressOffset : Int)
      (lastSegment : Option MemoryAddress) (objs' : List ReferencedObject),
      List.Forall₂ (passShape resolver) objs'
        (coercionPassGo resolver addressOffset lastSegment objs').1) ∧
    List.Forall₂ shortOnlyReverts (optimisticPass objs)
      (optimizeDirectPageLabels maxPasses objs).1 ∧
    (optimizeDirectPageLabels maxPasses objs).2 ≤ maxPasses := by
  refine ⟨optimisticPassGo_allShort objs 0 none,
    fun resolver off last objs' => coercionPassGo_shape resolver objs' off last, ?_, ?_⟩
  · exact coercionLoopGo_monotone (maxPasses + 1) maxPasses (optimisticPass objs) 1
      (by omega)
  · have h := coercionLoopGo_count (maxPasses + 1) maxPasses (optimisticPass objs) 1
      (by omega)
    unfold optimizeDirectPageLabels
    omega

/-! ### C10 -/

lemma LabelStore.lookup_resolveTo_self (store : LabelStore) (l : Label)
    (a : MemoryAddress) : (store.resolveTo l a).lookup l.id = some (.literal a) := by
  simp [LabelStore.resolveTo, LabelStore.lookup]

lemma LabelStore.lookup_resolveTo_ne (store : LabelStore) (l : Label)
    (a : MemoryAddress) (id : Nat) (h : l.id ≠ id) :
    (store.resolveTo l a).lookup id = store.lookup id := by
  simp only [LabelStore.resolveTo, LabelStore.lookup]
  rw [List.find?_cons_of_neg]
  simpa using h

/-- Once a label cell holds a location, the per-segment resolution loop never
changes it. -/
lemma passSegment_store_stable :
    ∀ (data : List LabeledMemoryValue) (store : LabelStore) (cgl : Option Label)
      (address : MemoryAddress) (id : Nat) (x : Number),
      store.lookup id = some x →
      ((passSegment store cgl address data).1).lookup id = some x := by
  intro data
  induction data with
  | nil => intro store cgl address id x h; simpa [passSegment] using h
  | cons datum rest ih =>
    intro store cgl address id x h
    rcases datum with ⟨lab, val⟩
    cases lab with
    | none =>
      simp only [passSegment]
      exact ih _ _ _ id x h
    | some l =>
      by_cases hres : store.isResolved l
      · simp only [passSegment, hres, if_pos]
        exact ih _ _ _ id x h
      · simp only [passSegment, hres, Bool.false_eq_true, if_neg, if_false]
        refine ih _ _ _ id x ?_
        have hne : l.id ≠ id := by
          intro heq
          rw [LabelStore.isResolved, heq, h] at hres
          simp at hres
        rw [LabelStore.lookup_resolveTo_ne store l address id hne]
        exact h

/-- The per-segment resolution loop assigns an unresolved label the memory
address of the slot that carries it. -/
lemma passSegment_assigns :
    ∀ (pre : List LabeledMemoryValue) (store : LabelStore) (cgl : Option Label)
      (start : MemoryAddress) (rest : List LabeledMemoryValue) (l : Label)
      (v : MemoryValue),
      store.lookup l.id = none →
      (∀ x ∈ pre, ∀ lx, x.label = some lx → lx.id ≠ l.id) →
      ((passSegment store cgl start (pre ++ ⟨some l, v⟩ :: rest)).1).lookup l.id =
        some (.literal (start + pre.length)) := by
  intro pre
  induction pre with
  | nil =>
    intro store cgl start rest l v hl _
    have hres : store.isResolved l = false := by
      rw [LabelStore.isResolved, hl]
      rfl
    simp only [List.nil_append, passSegment, hres, Bool.false_eq_true, if_neg, if_false]
    rw [passSegment_store_stable rest _ _ _ l.id _
      (LabelStore.lookup_resolveTo_self store l start)]
    norm_num
  | cons x pre' ih =>
    intro store cgl start rest l v hl hno
    rcases x with ⟨lab, val⟩
    have hstep : ∀ (store1 : LabelStore) (cgl1 : Option Label),
        store1.lookup l.id = none →
        ((passSegment store1 cgl1 (start + 1) (pre' ++ ⟨some l, v⟩ :: rest)).1).lookup
          l.id = some (.literal (start + (pre'.length + 1))) := by
      intro store1 cgl1 h1
      have := ih store1 cgl1 (start + 1) rest l v h1
        (fun y hy ly hly => hno y (List.mem_cons_of_mem _ hy) ly hly)
      rw [this]
      congr 2
      ring
    cases lab with
    | none =>
      simp only [List.cons_append, passSegment, List.append_eq]
      rw [hstep _ _ hl, List.length_cons]
      norm_cast
    | some lx =>
      have hne : lx.id ≠ l.id := hno _ (List.mem_cons_self _ _) lx rfl
      by_cases hres : store.isResolved lx
      · simp only [List.cons_append, passSegment, List.append_eq, hres, if_pos]
        rw [hstep _ _ hl, List.length_cons]
        norm_cast
      · have h1 : (store.resolveTo lx start).lookup l.id = none := by
          rw [LabelStore.lookup_resolveTo_ne store lx start l.id hne]
          exact hl
        simp only [List.cons_append, passSegment, List.append_eq, hres,
          Bool.false_eq_true, if_neg, if_false]
        rw [hstep _ _ h1, List.length_cons]
        norm_cast

/-- Folding `append(b, None)` over a byte list appends unlabeled resolved
slots. -/
lemma foldl_append_none :
    ∀ (vs : List Nat) (d : AssembledData) (start : MemoryAddress)
      (seg : List LabeledMemoryValue),
      d.currentSegmentStart = some start →
      d.segments.lookup start = some seg →
      ((vs.foldl (fun acc b => acc.append b none) d).segments.lookup start =
        some (seg ++ vs.map (fun b => ⟨none, .resolved b⟩)) ∧
      (vs.foldl (fun acc b => acc.append b none) d).currentSegmentStart = some start) := by
  intro vs
  induction vs with
  | nil => intro d start seg h1 h2; simpa using ⟨h2, h1⟩
  | cons v rest ih =>
    intro d start seg h1 h2
    have hl := AssembledData.append_lookup d v none start seg h1 h2
    have hc : (d.append v none).currentSegmentStart = some start := by
      rw [AssembledData.append_currentSegmentStart]; exact h1
    have := ih (d.append v none) start _ hc hl
    simpa [List.append_assoc] using this

/-- A table with entry size 1 and no label emits one unlabeled slot per
value. -/
lemma assembleTable_one_none :
    ∀ (values : List Number) (d : AssembledData) (start : MemoryAddress)
      (seg : List LabeledMemoryValue),
      d.currentSegmentStart = some start →
      d.segments.lookup start = some seg →
      ((assembleTable d 1 none values).segments.lookup start =
        some (seg ++ values.map (fun w => ⟨none, .number w 0⟩)) ∧
      (assembleTable d 1 none values).currentSegmentStart = some start) := by
  intro values
  induction values with
  | nil => intro d start seg h1 h2; simpa [assembleTable] using ⟨h2, h1⟩
  | cons v rest ih =>
    intro d start seg h1 h2
    have hl := AssembledData.pushValue_lookup d (.number v 0) none start seg h1 h2
    have hc : (d.pushValue (.number v 0) none).currentSegmentStart = some start := by
      rw [AssembledData.pushValue_currentSegmentStart]; exact h1
    have := ih (d.pushValue (.number v 0) none) start _ hc hl
    simpa [assembleTable, AssembledData.append8BitsUnresolved, List.append_assoc]
      using this

/-- A table with entry size 2 and no label emits two unlabeled slots per
value. -/
lemma assembleTable_two_none :
    ∀ (values : List Number) (d : AssembledData) (start : MemoryAddress)
      (seg : List LabeledMemoryValue),
      d.currentSegmentStart = some start →
      d.segments.lookup start = some seg →
      ((assembleTable d 2 none values).segments.lookup start =
        some (seg ++ values.flatMap (fun w => [⟨none, .number w 0⟩, ⟨none, .number w 1⟩])) ∧
      (assembleTable d 2 none values).currentSegmentStart = some start) := by
  intro values
  induction values with
  | nil => intro d start seg h1 h2; simpa [assembleTable] using ⟨h2, h1⟩
  | cons v rest ih =>
    intro d start seg h1 h2
    have hl0 := AssembledData.pushValue_lookup d (.number v 0) none start seg h1 h2
    have hc0 : (d.pushValue (.number v 0) none).currentSegmentStart = some start := by
      rw [AssembledData.pushValue_currentSegmentStart]; exact h1
    have hl1 := AssembledData.pushValue_lookup _ (.number v 1) none start _ hc0 hl0
    have hc1 : ((d.pushValue (.number v 0) none).pushValue
        (.number v 1) none).currentSegmentStart = some start := by
      rw [AssembledData.pushValue_currentSegmentStart]; exact hc0
    have := ih _ start _ hc1 hl1
    simpa [assembleTable, AssembledData.append16BitsUnresolved,
      AssembledData.append8BitsUnresolved, List.append_assoc] using this

/-- Past the first character, the string-emission loop of `assemble_macro`
appends every remaining byte unlabeled. -/
lemma assembleString_go_false (label : Option Label) :
    ∀ (text : List Nat) (d : AssembledData),
      assembleString.go label d false text =
        (text.foldl (fun acc b => acc.append b none) d, false) := by
  intro text
  induction text with
  | nil => intro d; rfl
  | cons c rest ih =>
    intro d
    simp only [assembleString.go, Bool.false_eq_true, if_false, List.foldl_cons]
    exact ih (d.append c none)

/-- C10: each multi-byte emission helper attaches the given label only to
the first emitted slot — `append_16_bits` (low byte labeled, high byte not),
`append_16_bits_unresolved`, `append_bytes`, the table loops for entry
sizes 1 and 2, and the string-emission loop (label on the first character
byte, or on the NUL terminator when the text is empty) — and the
per-segment resolution loop assigns a label carried by a slot the memory
address of exactly that slot, so the label receives the address of the
first byte of its run. -/
theorem multi_byte_emission_labels_first_byte :
    (∀ (d : AssembledData) (start : MemoryAddress) (seg : List LabeledMemoryValue)
      (value : MemoryAddress) (label : Option Label),
      d.currentSegmentStart = some start → d.segments.lookup start = some seg →
      (d.append16Bits value label).segments.lookup start =
        some (seg ++ [⟨label, .resolved (byteOf value 0)⟩,
          ⟨none, .resolved (byteOf value 1)⟩])) ∧
    (∀ (d : AssembledData) (start : MemoryAddress) (seg : List LabeledMemoryValue)
      (n : Number) (label : Option Label),
      d.currentSegmentStart = some start → d.segments.lookup start = some seg →
      (d.append16BitsUnresolved n label).segments.lookup start =
        some (seg ++ [⟨label, .number n 0⟩, ⟨none, .number n 1⟩])) ∧
    (∀ (d : AssembledData) (start : MemoryAddress) (seg : List LabeledMemoryValue)
      (values : List Nat) (label : Option Label),
      d.currentSegmentStart = some start → d.segments.lookup start = some seg →
      (d.appendBytes values label).segments.lookup start =
        some (seg ++ match values with
          | [] => []
          | v :: rest => ⟨label, .resolved v⟩ :: rest.map (fun b => ⟨none, .resolved b⟩))) ∧
    (∀ (d : AssembledData) (start : MemoryAddress) (seg : List LabeledMemoryValue)
      (values : List Number) (label : Option Label),
      d.currentSegmentStart = some start → d.segments.lookup start = some seg →
      (assembleTable d 1 label values).segments.lookup start =
        some (seg ++ match values with
          | [] => []
          | v :: rest => ⟨label, .number v 0⟩ :: rest.map (fun w => ⟨none, .number w 0⟩))) ∧
    (∀ (d : AssembledData) (start : MemoryAddress) (seg : List LabeledMemoryValue)
      (values : List Number) (label : Option Label),
      d.currentSegmentStart = some start → d.segments.lookup start = some seg →
      (assembleTable d 2 label values).segments.lookup start =
        some (seg ++ match values with
          | [] => []
          | v :: rest => ⟨label, .number v 0⟩ :: ⟨none, .number v 1⟩ ::
              rest.flatMap (fun w => [⟨none, .number w 0⟩, ⟨none, .number w 1⟩]))) ∧
    (∀ (d : AssembledData) (start : MemoryAddress) (seg : List LabeledMemoryValue)
      (text : List Nat) (hasNull : Bool) (label : Option Label),
      d.currentSegmentStart = some start → d.segments.lookup start = some seg →
      (assembleString d label text hasNull).segments.lookup start =
        some (seg ++ match text with
          | [] => if hasNull then [⟨label, .resolved 0⟩] else []
          | c :: rest => ⟨label, .resolved c⟩ ::
              (rest.map (fun b => ⟨none, .resolved b⟩) ++
                if hasNull then [⟨none, .resolved 0⟩] else []))) ∧
    (∀ (store : LabelStore) (cgl : Option Label) (start : MemoryAddress)
      (pre rest : List LabeledMemoryValue) (l : Label) (v : MemoryValue),
      store.lookup l.id = none →
      (∀ x ∈ pre, ∀ lx, x.label = some lx → lx.id ≠ l.id) →
      ((passSegment store cgl start (pre ++ ⟨some l, v⟩ :: rest)).1).lookup l.id =
        some (.literal (start + pre.length))) := by
  refine ⟨?_, ?_, ?_, ?_, ?_, ?_,
    fun store cgl start pre rest l v => passSegment_assigns pre store cgl start rest l v⟩
  · intro d start seg value label h1 h2
    have hl := AssembledData.append_lookup d (byteOf value 0) label start seg h1 h2
    have hc : (d.append (byteOf value 0) label).currentSegmentStart = some start := by
      rw [AssembledData.append_currentSegmentStart]; exact h1
    have hl2 := AssembledData.append_lookup _ (byteOf value 1) none start _ hc hl
    simpa [AssembledData.append16Bits, List.append_assoc] using hl2
  · intro d start seg n label h1 h2
    have hl := AssembledData.pushValue_lookup d (.number n 0) label start seg h1 h2
    have hc : (d.pushValue (.number n 0) label).currentSegmentStart = some start := by
      rw [AssembledData.pushValue_currentSegmentStart]; exact h1
    have hl2 := AssembledData.pushValue_lookup _ (.number n 1) none start _ hc hl
    simpa [AssembledData.append16BitsUnresolved, AssembledData.append8BitsUnresolved,
      List.append_assoc] using hl2
  · intro d start seg values label h1 h2
    cases values with
    | nil => simpa [AssembledData.appendBytes] using h2
    | cons v rest =>
      have hl := AssembledData.append_lookup d v label start seg h1 h2
      have hc : (d.append v label).currentSegmentStart = some start := by
        rw [AssembledData.append_currentSegmentStart]; exact h1
      have := (foldl_append_none rest (d.append v label) start _ hc hl).1
      simpa [AssembledData.appendBytes, List.append_assoc] using this
  · intro d start seg values label h1 h2
    cases values with
    | nil => simpa [assembleTable] using h2
    | cons v rest =>
      have hl := AssembledData.pushValue_lookup d (.number v 0) label start seg h1 h2
      have hc : (d.pushValue (.number v 0) label).currentSegmentStart = some start := by
        rw [AssembledData.pushValue_currentSegmentStart]; exact h1
      have := (assembleTable_one_none rest _ start _ hc hl).1
      simpa [assembleTable, AssembledData.append8BitsUnresolved, List.append_assoc]
        using this
  · intro d start seg values label h1 h2
    cases values with
    | nil => simpa [assembleTable] using h2
    | cons v rest =>
      have hl0 := AssembledData.pushValue_lookup d (.number v 0) label start seg h1 h2
      have hc0 : (d.pushValue (.number v 0) label).currentSegmentStart = some start := by
        rw [AssembledData.pushValue_currentSegmentStart]; exact h1
      have hl1 := AssembledData.pushValue_lookup _ (.number v 1) none start _ hc0 hl0
      have hc1 : ((d.pushValue (.number v 0) label).pushValue
          (.number v 1) none).currentSegmentStart = some start := by
        rw [AssembledData.pushValue_currentSegmentStart]; exact hc0
      have := (assembleTable_two_none rest _ start _ hc1 hl1).1
      simpa [assembleTable, AssembledData.append16BitsUnresolved,
        AssembledData.append8BitsUnresolved, List.append_assoc] using this
  · intro d start seg text hasNull label h1 h2
    cases text with
    | nil =>
      cases hasNull with
      | false => simpa [assembleString, assembleString.go] using h2
      | true =>
        have hl := AssembledData.append_lookup d 0 label start seg h1 h2
        simpa [assembleString, assembleString.go] using hl
    | cons c rest =>
      have hl := AssembledData.append_lookup d c label start seg h1 h2
      have hc : (d.append c label).currentSegmentStart = some start := by
        rw [AssembledData.append_currentSegmentStart]; exact h1
      have hfold := foldl_append_none rest (d.append c label) start _ hc hl
      cases hasNull with
      | false =>
        simpa [assembleString, assembleString.go, assembleString_go_false,
          List.append_assoc] using hfold.1
      | true =>
        have hl2 := AssembledData.append_lookup _ 0 none start _ hfold.2 hfold.1
        simpa [assembleString, assembleString.go, assembleString_go_false,
          List.append_assoc] using hl2

/-- Witness for C10: a three-byte run appended to a fresh segment carries
the label only on its first slot, a two-character NUL-terminated string
carries its label only on the first character, and the resolution loop
assigns the first label address 0 of the segment. -/
theorem multi_byte_emission_labels_first_byte_witness :
    ((AssembledData.new.newSegment 0).appendBytes [1, 2, 3]
        (some (.global 0))).segments.lookup 0 =
      some [⟨some (.global 0), .resolved 1⟩, ⟨none, .resolved 2⟩,
        ⟨none, .resolved 3⟩] ∧
    (assembleString (AssembledData.new.newSegment 0) (some (.global 1))
        [65, 66] true).segments.lookup 0 =
      some [⟨some (.global 1), .resolved 65⟩, ⟨none, .resolved 66⟩,
        ⟨none, .resolved 0⟩] ∧
    ((passSegment [] none 0 [⟨some (.global 0), .resolved 1⟩, ⟨none, .resolved 2⟩,
        ⟨none, .resolved 3⟩]).1).lookup 0 = some (.literal 0) := by
  refine ⟨?_, ?_, ?_⟩
  · have h := (multi_byte_emission_labels_first_byte).2.2.1
      (AssembledData.new.newSegment 0) 0 [] [1, 2, 3] (some (.global 0)) rfl rfl
    simpa using h
  · have h := (multi_byte_emission_labels_first_byte).2.2.2.2.2.1
      (AssembledData.new.newSegment 0) 0 [] [65, 66] true (some (.global 1)) rfl rfl
    simpa using h
  · have h := (multi_byte_emission_labels_first_byte).2.2.2.2.2.2
      [] none 0 [] [⟨none, .resolved 2⟩, ⟨none, .resolved 3⟩] (.global 0)
      (.resolved 1) rfl (by simp)
    simpa using h

/-! ### C3 -/

lemma exceptBind_error {α β : Type} (e : AssemblyError)
    (f : α → Except AssemblyError β) :
    ((Except.error e : Except AssemblyError α) >>= f) = Except.error e := rfl

lemma exceptBind_ok {α β : Type} (a : α) (f : α → Except AssemblyError β) :
    ((Except.ok a : Except AssemblyError α) >>= f) = f a := rfl

lemma tryAsResolved_ne_missing (lmv : LabeledMemoryValue) :
    lmv.tryAsResolved ≠ .error .missingSegment := by
  unfold LabeledMemoryValue.tryAsResolved
  cases hv : lmv.value.tryResolved <;> simp

lemma resolveSegmentData_ne_missing :
    ∀ (data : List LabeledMemoryValue),
      resolveSegmentData data ≠ .error .missingSegment := by
  intro data
  induction data with
  | nil => simp [resolveSegmentData]
  | cons x xs ih =>
    unfold resolveSegmentData
    cases hx : x.tryAsResolved with
    | error e =>
      rw [exceptBind_error]
      intro h
      cases h
      exact tryAsResolved_ne_missing x hx
    | ok v =>
      rw [exceptBind_ok]
      cases hxs : resolveSegmentData xs with
      | error e =>
        rw [exceptBind_error]
        intro h
        cases h
        exact ih hxs
      | ok vs =>
        rw [exceptBind_ok]
        simp

lemma combineAux_ne_missing :
    ∀ (segs : SegmentMap) (acc : List Nat),
      combineSegmentsAux acc segs ≠ .error .missingSegment := by
  intro segs
  induction segs with
  | nil => intro acc; simp [combineSegmentsAux]
  | cons seg rest ih =>
    intro acc
    rcases seg with ⟨o, dseg⟩
    unfold combineSegmentsAux
    by_cases ho : o < (acc.length : Int)
    · simp [ho]
    · simp only [ho, if_neg, if_false]
      cases hm : resolveSegmentData dseg with
      | error e =>
        intro h
        simp only at h
        cases h
        exact resolveSegmentData_ne_missing dseg hm
      | ok bytes => exact ih _

lemma incbinSlice_ne_missing (data : List Nat) (range : Option (Nat × Nat)) :
    incbinSlice data range ≠ .error .missingSegment := by
  unfold incbinSlice
  split
  · simp
  · simp only []
    split <;> simp

lemma assembleMcro_ne_missing (d : AssembledData) (m : Mcro) :
    assembleMcro d m ≠ .error .missingSegment := by
  rcases m with ⟨label, value⟩
  cases value with
  | incbin fileData range =>
    unfold assembleMcro
    cases hs : incbinSlice fileData range with
    | error e =>
      simp only [hs, exceptBind_error]
      intro h
      cases h
      exact incbinSlice_ne_missing fileData range hs
    | ok bytes => simp [hs, exceptBind_ok]
  | org a => simp [assembleMcro]
  | table es vs => simp [assembleMcro]
  | brr enc => simp [assembleMcro]
  | str t n => simp [assembleMcro]
  | assignLabel l v => simp [assembleMcro]
  | fin => simp [assembleMcro]

lemma assembleElement_ne_missing (d : AssembledData) (e : ProgramElement) :
    assembleElement d e ≠ .error .missingSegment := by
  cases e with
  | instruction i => simp [assembleElement]
  | mcro m => exact assembleMcro_ne_missing d m

lemma assembleElements_ne_missing :
    ∀ (elements : List ProgramElement) (d : AssembledData),
      assembleElements d elements ≠ .error .missingSegment := by
  intro elements
  induction elements with
  | nil => intro d; simp [assembleElements]
  | cons e rest ih =>
    intro d
    unfold assembleElements
    cases he : assembleElement d e with
    | error err =>
      simp only [exceptBind_error]
      intro h
      cases h
      exact assembleElement_ne_missing d e he
    | ok d' =>
      simp only [exceptBind_ok]
      by_cases hs : d'.shouldStop
      · simp [hs]
      · simp only [hs, Bool.false_eq_true, if_neg, if_false]
        exact ih d'

/-- C3 counterexample: assembling a lone `nop` with no `org` directive in
front of it succeeds with the byte placed at address 0 — it does not fail
with a missing-segment error, because `assemble` opens a segment at address
0 before processing any element. -/
theorem assemble_before_org_counterexample :
    assemble [.instruction ⟨none, .operandless .nop⟩] = .ok [0x00] := by rfl

/-- C3 (amended): `assemble` implicitly opens a segment at address 0, so a
data-emitting element before any `org` directive is assembled into that
segment (an operandless instruction alone yields exactly its opcode byte at
address 0) and `assemble` never returns a missing-segment error. -/
theorem assemble_uses_implicit_segment_zero :
    (∀ m : OplessMnemonic,
      assemble [.instruction ⟨none, .operandless m⟩] = .ok [oplessOpcode m]) ∧
    (∀ elements : List ProgramElement, assemble elements ≠ .error .missingSegment) ∧
    (AssembledData.new.newSegment 0).segments = [(0, [])] := by
  refine ⟨fun m => by cases m <;> rfl, fun elements => ?_, rfl⟩
  unfold assemble
  intro h
  simp only [] at h
  cases he : assembleElements (AssembledData.new.newSegment 0) elements with
  | error err =>
    rw [he, exceptBind_error] at h
    cases h
    exact assembleElements_ne_missing elements _ he
  | ok d =>
    rw [he, exceptBind_ok] at h
    rcases hal : assembleLoop (MAX_PASSES + 1) d 0 with ⟨d2, k⟩
    rw [hal] at h
    unfold AssembledData.combineSegments at h
    exact combineAux_ne_missing _ _ h

/-- Witness for C3 (amended) at the `ret` instruction. -/
theorem assemble_uses_implicit_segment_zero_witness :
    assemble [.instruction ⟨none, .operandless .ret⟩] = .ok [0x6F] :=
  (assemble_uses_implicit_segment_zero).1 .ret

/-- Witness for C8 at a concrete empty object list and pass bound 3. -/
theorem dp_optimizer_monotone_and_bounded_witness :
    (optimizeDirectPageLabels 3 []).2 ≤ 3 :=
  (dp_optimizer_monotone_and_bounded 3 []).2.2.2

/-! ### C1 -/

/-- Whether a memory value is already a resolved literal byte. -/
def MemoryValue.isResolvedByte : MemoryValue → Bool
  | .resolved _ => true
  | _ => false

/-- The byte held by a resolved slot (0 otherwise; only relevant under a
fully-resolved hypothesis). -/
def slotByte (lmv : LabeledMemoryValue) : Nat :=
  match lmv.value with
  | .resolved v => v
  | _ => 0

/-- Every slot of every segment holds a resolved literal. -/
def segmentsFullyResolved (segs : SegmentMap) : Bool :=
  segs.all (fun p => p.2.all (fun lmv => lmv.value.isResolvedByte))

/-- The claim's "pairwise non-overlapping", read as disjointness of the
address ranges `[origin, origin + byte count)` of two segments. -/
def segmentsDisjoint (a b : MemoryAddress × List LabeledMemoryValue) : Bool :=
  decide (a.1 + a.2.length ≤ b.1) || decide (b.1 + b.2.length ≤ a.1) ||
    decide (a.2.length = 0) || decide (b.2.length = 0)

/-- The source's section-mismatch condition folded over the segments with
the running output length: some segment starts below the output accumulated
from the segments before it. -/
def mismatchFrom (len : Int) : SegmentMap → Bool
  | [] => false
  | (o, d) :: rest => if o < len then true else mismatchFrom (o + d.length) rest

/-- C1 counterexample: the two fully-resolved segments `{0 -> [7, 8],
1 -> []}` are pairwise non-overlapping (the second covers no addresses),
yet `combine_segments` returns a section-mismatch error, because the empty
segment's origin 1 lies below the accumulated output length 2.  The claim's
Ok case would also prescribe output length "highest origin + its byte
count" = 1, impossible with two bytes at origin 0. -/
theorem combine_segments_claim_counterexample :
    segmentsDisjoint (0, [⟨none, .resolved 7⟩, ⟨none, .resolved 8⟩]) (1, []) = true ∧
    segmentsFullyResolved
      [(0, [⟨none, .resolved 7⟩, ⟨none, .resolved 8⟩]), (1, [])] = true ∧
    AssembledData.combineSegments
      { segments := [(0, [⟨none, .resolved 7⟩, ⟨none, .resolved 8⟩]), (1, [])],
        currentSegmentStart := none, labels := [], shouldStop := false } =
      .error (.sectionMismatch 1 2) :=
  ⟨by decide, by decide, by rfl⟩

/-- On a fully resolved segment, `try_collect` succeeds with the slots'
bytes. -/
lemma resolveSegmentData_ok (dseg : List LabeledMemoryValue)
    (h : dseg.all (fun lmv => lmv.value.isResolvedByte) = true) :
    resolveSegmentData dseg = .ok (dseg.map slotByte) := by
  induction dseg with
  | nil => rfl
  | cons x xs ih =>
    rw [List.all_cons, Bool.and_eq_true] at h
    unfold resolveSegmentData
    have hx : x.tryAsResolved = .ok (slotByte x) := by
      rcases x with ⟨lab, val⟩
      cases val <;>
        simp_all [MemoryValue.isResolvedByte, LabeledMemoryValue.tryAsResolved,
          MemoryValue.tryResolved, slotByte]
    rw [hx, exceptBind_ok, ih h.2, exceptBind_ok]
    rfl

/-- When the mismatch condition holds, `combine_segments` reports a section
mismatch. -/
lemma combineAux_mismatch :
    ∀ (segs : SegmentMap) (acc : List Nat),
      segmentsFullyResolved segs = true →
      mismatchFrom (acc.length) segs = true →
      ∃ s e, combineSegmentsAux acc segs = .error (.sectionMismatch s e) := by
  intro segs
  induction segs with
  | nil => intro acc _ hm; simp [mismatchFrom] at hm
  | cons seg rest ih =>
    intro acc hres hm
    rcases seg with ⟨o, dseg⟩
    rw [segmentsFullyResolved, List.all_cons, Bool.and_eq_true] at hres
    unfold combineSegmentsAux
    by_cases ho : o < (acc.length : Int)
    · exact ⟨o, acc.length, by simp [ho]⟩
    · rw [mismatchFrom, if_neg ho] at hm
      rw [if_neg ho, resolveSegmentData_ok dseg hres.1]
      have hoa : (acc.length : Int) ≤ o := not_lt.1 ho
      have hlenInt : (((acc ++ List.replicate (o.toNat - acc.length) 0
          ++ dseg.map slotByte).length : Nat) : Int) = o + dseg.length := by
        simp only [List.length_append, List.length_replicate, List.length_map]
        push_cast
        omega
      refine ih _ hres.2 ?_
      rw [hlenInt]
      exact hm
/-- The Ok case of `combine_segments`, generalized over the accumulated
output: when no segment starts below the running output length and all
slots are resolved, the fold succeeds, extends the accumulator, ends at the
last segment's origin plus its byte count, places each segment's bytes at
its origin, and fills everything else with zeros. -/
lemma combineAux_ok_spec :
    ∀ (segs : SegmentMap) (acc : List Nat),
      segmentsFullyResolved segs = true →
      mismatchFrom (acc.length) segs = false →
      ∃ out, combineSegmentsAux acc segs = .ok out ∧
        (∃ tail, out = acc ++ tail) ∧
        ((segs.getLast?).elim (out.length = acc.length)
          (fun p => (out.length : Int) = p.1 + p.2.length)) ∧
        (∀ p ∈ segs, ∀ i lmv, p.2[i]? = some lmv →
          out[p.1.toNat + i]? = some (slotByte lmv)) ∧
        (∀ addr : Nat, acc.length ≤ addr → addr < out.length →
          (∀ p ∈ segs, ¬(p.1 ≤ (addr : Int) ∧ (addr : Int) < p.1 + p.2.length)) →
          out[addr]? = some 0) := by
  intro segs
  induction segs with
  | nil =>
    intro acc _ _
    refine ⟨acc, rfl, ⟨[], by simp⟩, rfl, by simp, ?_⟩
    intro addr h1 h2 _
    omega
  | cons seg rest ih =>
    intro acc hres hmm
    rcases seg with ⟨o, dseg⟩
    rw [segmentsFullyResolved, List.all_cons, Bool.and_eq_true] at hres
    rw [mismatchFrom] at hmm
    by_cases ho : o < (acc.length : Int)
    · rw [if_pos ho] at hmm
      exact absurd hmm (by simp)
    · rw [if_neg ho] at hmm
      have hoa : (acc.length : Int) ≤ o := not_lt.1 ho
      have ho0 : 0 ≤ o := le_trans (Int.ofNat_nonneg acc.length) hoa
      have hoNat : (o.toNat : Int) = o := Int.toNat_of_nonneg ho0
      have hpre : (acc ++ List.replicate (o.toNat - acc.length) 0).length = o.toNat := by
        simp only [List.length_append, List.length_replicate]
        omega
      have hlen' : (acc ++ List.replicate (o.toNat - acc.length) 0
          ++ dseg.map slotByte).length = o.toNat + dseg.length := by
        simp only [List.length_append, List.length_replicate, List.length_map]
        omega
      have hlenInt : (((acc ++ List.replicate (o.toNat - acc.length) 0
          ++ dseg.map slotByte).length : Nat) : Int) = o + dseg.length := by
        rw [hlen']
        push_cast
        omega
      have hmm' : mismatchFrom (((acc ++ List.replicate (o.toNat - acc.length) 0
          ++ dseg.map slotByte).length : Nat) : Int) rest = false := by
        rw [hlenInt]
        exact hmm
      obtain ⟨out, hcomb, ⟨tail, htail⟩, hlast, hbyte, hzero⟩ := ih _ hres.2 hmm'
      have houtlen : (acc ++ List.replicate (o.toNat - acc.length) 0
          ++ dseg.map slotByte).length ≤ out.length := by
        rw [htail]
        simp
      refine ⟨out, ?_, ?_, ?_, ?_, ?_⟩
      · unfold combineSegmentsAux
        rw [if_neg ho, resolveSegmentData_ok dseg hres.1]
        exact hcomb
      · refine ⟨List.replicate (o.toNat - acc.length) 0 ++ dseg.map slotByte ++ tail, ?_⟩
        rw [htail]
        simp
      · cases rest with
        | nil =>
          simp only [List.getLast?_singleton, Option.elim]
          simp only [List.getLast?_nil, Option.elim] at hlast
          rw [hlast]
          exact hlenInt
        | cons r rs =>
          rw [List.getLast?_cons_cons]
          exact hlast
      · intro p hp i lmv hgl
        rcases List.mem_cons.1 hp with rfl | hmem
        · obtain ⟨hi, -⟩ := List.getElem?_eq_some.1 hgl
          have hi2 : i < dseg.length := hi
          have hidx : o.toNat + i < (acc ++ List.replicate (o.toNat - acc.length) 0
              ++ dseg.map slotByte).length := by
            rw [hlen']
            omega
          have hagree : out[o.toNat + i]? =
              (acc ++ List.replicate (o.toNat - acc.length) 0
                ++ dseg.map slotByte)[o.toNat + i]? := by
            rw [htail, List.getElem?_append, if_pos hidx]
          rw [hagree, List.getElem?_append_right (by rw [hpre]; omega), hpre]
          have hgl2 : dseg[i]? = some lmv := hgl
          simp only [Nat.add_sub_cancel_left, List.getElem?_map, hgl2]
          rfl
        · exact hbyte p hmem i lmv hgl
      · intro addr h1 h2 hnc
        by_cases haddr : addr < (acc ++ List.replicate (o.toNat - acc.length) 0
            ++ dseg.map slotByte).length
        · have hagree : out[addr]? =
              (acc ++ List.replicate (o.toNat - acc.length) 0
                ++ dseg.map slotByte)[addr]? := by
            rw [htail, List.getElem?_append, if_pos haddr]
          have hno : ¬(o ≤ (addr : Int) ∧ (addr : Int) < o + (dseg.length : Int)) :=
            hnc (o, dseg) (List.mem_cons_self _ _)
          have haddlt : addr < o.toNat := by
            rw [hlen'] at haddr
            by_contra hge
            push_neg at hge
            refine hno ⟨?_, ?_⟩
            · rw [← hoNat]
              exact_mod_cast hge
            · rw [← hoNat]
              exact_mod_cast haddr
          rw [hagree, List.getElem?_append]
          have haddpre : addr < (acc ++ List.replicate (o.toNat - acc.length) 0).length := by
            rw [hpre]
            omega
          rw [if_pos haddpre, List.getElem?_append_right h1, List.getElem?_replicate]
          rw [if_pos (by omega)]
        · push_neg at haddr
          refine hzero addr haddr h2 ?_
          intro p hp
          exact hnc p (List.mem_cons_of_mem _ hp)
/-- C1 (amended): for every assembled data whose segments are fully
resolved, `combine_segments` returns a section-mismatch error exactly when
some segment's origin lies below the length of the output accumulated from
the earlier segments (an empty segment inside an earlier one triggers this
even though it overlaps nothing); otherwise it returns Ok with a byte
vector whose length is the last segment's origin plus its byte count, in
which the byte at (origin + i) is the i-th resolved byte of that segment
and every byte not covered by any segment is zero. -/
theorem combine_segments_ordered (d : AssembledData)
    (hres : segmentsFullyResolved d.segments = true) :
    (mismatchFrom 0 d.segments = true →
      ∃ s e, d.combineSegments = .error (.sectionMismatch s e)) ∧
    (mismatchFrom 0 d.segments = false →
      ∃ out, d.combineSegments = .ok out ∧
        ((d.segments.getLast?).elim (out.length = 0)
          (fun p => (out.length : Int) = p.1 + p.2.length)) ∧
        (∀ p ∈ d.segments, ∀ i lmv, p.2[i]? = some lmv →
          out[p.1.toNat + i]? = some (slotByte lmv)) ∧
        (∀ addr : Nat, addr < out.length →
          (∀ p ∈ d.segments, ¬(p.1 ≤ (addr : Int) ∧ (addr : Int) < p.1 + p.2.length)) →
          out[addr]? = some 0)) := by
  constructor
  · intro hm
    obtain ⟨s, e, h⟩ := combineAux_mismatch d.segments [] hres (by simpa using hm)
    exact ⟨s, e, h⟩
  · intro hm
    obtain ⟨out, hcomb, -, hlast, hbyte, hzero⟩ :=
      combineAux_ok_spec d.segments [] hres (by simpa using hm)
    exact ⟨out, hcomb, hlast, hbyte,
      fun addr h2 hnc => hzero addr (Nat.zero_le addr) h2 hnc⟩

/-- Witness for `combine_segments_ordered`: two resolved one-byte segments
at origins 0 and 2 combine to an output whose byte at address 2 is the
second segment's byte. -/
theorem combine_segments_ordered_witness :
    segmentsFullyResolved
      [(0, [⟨none, .resolved 7⟩]), (2, [⟨none, .resolved 9⟩])] = true ∧
    ∃ out,
      AssembledData.combineSegments
        { segments := [(0, [⟨none, .resolved 7⟩]), (2, [⟨none, .resolved 9⟩])],
          currentSegmentStart := none, labels := [], shouldStop := false } =
        .ok out ∧
      out[2]? = some 9 := by
  refine ⟨by decide, ?_⟩
  obtain ⟨out, hok, -, hbyte, -⟩ :=
    (combine_segments_ordered
      { segments := [(0, [⟨none, .resolved 7⟩]), (2, [⟨none, .resolved 9⟩])],
        currentSegmentStart := none, labels := [], shouldStop := false }
      (by decide)).2 (by decide)
  refine ⟨out, hok, ?_⟩
  have h := hbyte (2, [⟨none, .resolved 9⟩])
    (List.mem_cons_of_mem _ (List.mem_cons_self _ _))
    0 ⟨none, .resolved 9⟩ rfl
  simpa using h

end Spcasm
